import Mathlib

/-!
Verification of the transcript-segmentation core of the uscongress-data
repository.  This file gives a shallow embedding of the relevant parts of
`speaker_scraper.py`, `parse_CRECB_data/3-add_debate_titles.py` and
`parse_CRECB_data/4-clean_record_boilerplate.py`, and proves theorems that
settle the specification claims about them.

Python strings are modelled as `List Char`; Python string helpers
(`str.strip`, `str.split`, `str.splitlines`, slicing) are embedded as
executable functions on `List Char` with ASCII case semantics.
-/

namespace USCongress

/-- Convert a Lean string literal into the `List Char` model of Python strings. -/
def toL (s : String) : List Char := s.toList

/-- The characters that Python `str.splitlines` treats as line boundaries
(`\r\n` is additionally treated as a single boundary). -/
def isLineBreakChar (c : Char) : Bool :=
  c == '\n' || c == '\r' || c == '\x0b' || c == '\x0c' ||
  c == '\x1c' || c == '\x1d' || c == '\x1e' || c == '\u0085' ||
  c == ' ' || c == ' '

/-- The Python whitespace set: the characters for which `str.isspace()` holds,
which is also the character class of regex `\s` and the set stripped by
`str.strip()` with no argument. -/
def isPyWs (c : Char) : Bool :=
  c == ' ' || c == '\t' || c == '\n' || c == '\r' || c == '\x0b' || c == '\x0c' ||
  c == '\x1c' || c == '\x1d' || c == '\x1e' || c == '\x1f' ||
  c == '\u0085' || c == ' ' || c == ' ' ||
  (decide (' ' ≤ c) && decide (c ≤ ' ')) ||
  c == ' ' || c == ' ' || c == ' ' || c == ' ' || c == '　'

/-- Python `s.lstrip()`. -/
def pyStripLeft (l : List Char) : List Char := l.dropWhile isPyWs

/-- Python `s.strip()` (strip whitespace from both ends). -/
def pyStrip (l : List Char) : List Char :=
  ((l.dropWhile isPyWs).reverse.dropWhile isPyWs).reverse

/-- Python `s.strip(chars)`: strip the characters satisfying `p` from both ends. -/
def stripCharsBoth (p : Char → Bool) (l : List Char) : List Char :=
  ((l.dropWhile p).reverse.dropWhile p).reverse

/-- Helper for `pySplitWs`: accumulate the current (reversed) token. -/
def pySplitWsAux (acc : List Char) : List Char → List (List Char)
  | [] => if acc.isEmpty then [] else [acc.reverse]
  | c :: rest =>
    if isPyWs c then
      if acc.isEmpty then pySplitWsAux [] rest
      else acc.reverse :: pySplitWsAux [] rest
    else pySplitWsAux (c :: acc) rest

/-- Python `s.split()` with no argument: split on whitespace runs, no empty tokens. -/
def pySplitWs (l : List Char) : List (List Char) := pySplitWsAux [] l

/-- First stage of `str.splitlines`: cut the text after every single
line-break character, keeping that character with its line.  `acc` is the
reversed current line content. -/
def splitCharLines (acc : List Char) : List Char → List (List Char)
  | [] => if acc.isEmpty then [] else [acc.reverse]
  | c :: rest =>
    if isLineBreakChar c then (acc.reverse ++ [c]) :: splitCharLines [] rest
    else splitCharLines (c :: acc) rest

/-- Second stage of `str.splitlines`: a line ending in `\r` followed by a line
that is exactly `"\n"` came from a `\r\n` pair, which Python treats as a single
line boundary, so the two pieces are glued back together. -/
def mergeCRLF : List (List Char) → List (List Char)
  | [] => []
  | [l] => [l]
  | l :: l2 :: rest =>
    if l.getLast? = some '\r' && l2 = ['\n'] then (l ++ ['\n']) :: mergeCRLF rest
    else l :: mergeCRLF (l2 :: rest)

/-- Python `s.splitlines(keepends=True)`. -/
def pySplitlinesKeep (l : List Char) : List (List Char) :=
  mergeCRLF (splitCharLines [] l)

/-- Remove the trailing line terminator (`\r\n`, or a single line-break
character) from a line, if present. -/
def dropLineEnd (l : List Char) : List Char :=
  match l.getLast? with
  | none => l
  | some c =>
    if c = '\n' ∧ l.dropLast.getLast? = some '\r' then l.dropLast.dropLast
    else if isLineBreakChar c then l.dropLast
    else l

/-- Python `s.splitlines()` (no keepends). -/
def pySplitlines (l : List Char) : List (List Char) :=
  (pySplitlinesKeep l).map dropLineEnd

/-! ## Embedding of `parse_CRECB_data/4-clean_record_boilerplate.py` -/

/-- The fixed target phrase `TARGET = "CONGRESSIONAL RECORD"`. -/
def TARGET : List Char := toL "CONGRESSIONAL RECORD"

/-- `T_LEN = len(TARGET)`. -/
def T_LEN : Nat := TARGET.length

/-- `levenshtein_leq1(a, b)`: true iff the Levenshtein distance between `a` and
`b` is at most 1, computed exactly as the source does: equal strings are
accepted at once; length difference above 1 is rejected; equal lengths compare
position-wise and allow at most one substitution; lengths differing by one try
deleting each character of the longer string. -/
def levenshtein_leq1 (a b : List Char) : Bool :=
  if a = b then true
  else if 1 < max a.length b.length - min a.length b.length then false
  else if a.length = b.length then
    decide (((a.zip b).countP fun p => decide (p.1 ≠ p.2)) ≤ 1)
  else
    let s := if a.length ≤ b.length then a else b
    let t := if a.length ≤ b.length then b else a
    (List.range t.length).any fun i => decide (t.eraseIdx i = s)

/-- The character class kept by `re.sub(r"[^A-Z ]", "", window)`. -/
def isUpperOrSpace (c : Char) : Bool :=
  (decide ('A' ≤ c) && decide (c ≤ 'Z')) || c == ' '

/-- `line_contains_fuzzy_target(line)`: upper-case the line and slide windows of
length `T_LEN - 1`, `T_LEN`, `T_LEN + 1` over it; strip each window of
punctuation and test it against `TARGET` with `levenshtein_leq1`. -/
def line_contains_fuzzy_target (line : List Char) : Bool :=
  let up := line.map Char.toUpper
  [T_LEN - 1, T_LEN, T_LEN + 1].any fun L =>
    if L ≤ up.length then
      (List.range (up.length - L + 1)).any fun i =>
        levenshtein_leq1 (((up.drop i).take L).filter isUpperOrSpace) TARGET
    else false

/-- `clean_speech_text(text)`: drop every line containing the fuzzy target and
rejoin the remaining lines with `"\n"`. -/
def clean_speech_text (text : List Char) : List Char :=
  List.intercalate ['\n']
    ((pySplitlines text).filter fun l => !(line_contains_fuzzy_target l))

/-! ## The distance-at-most-one test, as the specification words it -/

/-- The edit-distance-at-most-one relation as the claim states it: equal-length
strings may differ in at most one position; strings whose lengths differ by
exactly one are related iff deleting one character of the longer yields the
shorter; all other length combinations are unrelated. -/
def DistLeOneSpec (a b : List Char) : Prop :=
  (a.length = b.length ∧
    ((List.range a.length).countP fun i => decide (a.getD i ' ' ≠ b.getD i ' ')) ≤ 1)
  ∨ (a.length + 1 = b.length ∧ ∃ i < b.length, b.eraseIdx i = a)
  ∨ (b.length + 1 = a.length ∧ ∃ i < a.length, a.eraseIdx i = b)

theorem countDiff_zip_range : ∀ (a b : List Char), a.length = b.length →
    ((a.zip b).countP fun p => decide (p.1 ≠ p.2)) =
      (List.range a.length).countP fun i => decide (a.getD i ' ' ≠ b.getD i ' ')
  | [], [], _ => rfl
  | [], _ :: _, h => by simp at h
  | _ :: _, [], h => by simp at h
  | x :: a, y :: b, h => by
    have ih := countDiff_zip_range a b (by simpa using h)
    simp only [List.zip_cons_cons, List.countP_cons, List.length_cons,
      List.range_succ_eq_map, List.countP_map, Function.comp_def,
      List.getD_cons_zero, List.getD_cons_succ]
    rw [ih]

theorem levenshtein_leq1_iff (a b : List Char) :
    levenshtein_leq1 a b = true ↔ DistLeOneSpec a b := by
  unfold levenshtein_leq1
  split_ifs with h1 h2 h3 hle
  · subst h1
    constructor
    · intro _
      exact Or.inl ⟨rfl, by
        have h0 : ((List.range a.length).countP fun i =>
            decide (a.getD i ' ' ≠ a.getD i ' ')) = 0 :=
          List.countP_eq_zero.mpr (by intro i _; simp)
        omega⟩
    · intro _; rfl
  · constructor
    · intro h; simp at h
    · rintro (⟨hl, _⟩ | ⟨hl, _⟩ | ⟨hl, _⟩) <;> omega
  · rw [decide_eq_true_eq, countDiff_zip_range a b h3]
    constructor
    · intro h; exact Or.inl ⟨h3, h⟩
    · rintro (⟨_, h⟩ | ⟨hl, _⟩ | ⟨hl, _⟩)
      · exact h
      · omega
      · omega
  · have hblen : a.length + 1 = b.length := by omega
    simp only [List.any_eq_true, List.mem_range, decide_eq_true_eq]
    constructor
    · rintro ⟨i, hi, he⟩; exact Or.inr (Or.inl ⟨hblen, i, hi, he⟩)
    · rintro (⟨hl, _⟩ | ⟨_, i, hi, he⟩ | ⟨hl, _⟩)
      · exact absurd hl h3
      · exact ⟨i, hi, he⟩
      · omega
  · have halen : b.length + 1 = a.length := by omega
    simp only [List.any_eq_true, List.mem_range, decide_eq_true_eq]
    constructor
    · rintro ⟨i, hi, he⟩; exact Or.inr (Or.inr ⟨halen, i, hi, he⟩)
    · rintro (⟨hl, _⟩ | ⟨hl, _⟩ | ⟨_, i, hi, he⟩)
      · exact absurd hl h3
      · omega
      · exact ⟨i, hi, he⟩

/-- The removal condition of the Boilerplate Fuzzy Filter as the claim states
it: for some window length `L` in `[T_LEN - 1, T_LEN, T_LEN + 1]`, some window
of the upper-cased line, cleaned of all characters other than capital letters
and spaces, is within edit distance one of `TARGET`. -/
def FuzzyRemovableSpec (line : List Char) : Prop :=
  ∃ L ∈ [T_LEN - 1, T_LEN, T_LEN + 1], ∃ i,
    i + L ≤ (line.map Char.toUpper).length ∧
    DistLeOneSpec ((((line.map Char.toUpper).drop i).take L).filter isUpperOrSpace) TARGET

theorem line_contains_fuzzy_target_iff (line : List Char) :
    line_contains_fuzzy_target line = true ↔ FuzzyRemovableSpec line := by
  unfold line_contains_fuzzy_target FuzzyRemovableSpec
  simp only [List.any_eq_true]
  refine exists_congr fun L => and_congr_right fun _ => ?_
  split_ifs with hle
  · simp only [List.any_eq_true, List.mem_range, levenshtein_leq1_iff]
    constructor
    · rintro ⟨i, hi, hd⟩; exact ⟨i, by omega, hd⟩
    · rintro ⟨i, hi, hd⟩; exact ⟨i, by omega, hd⟩
  · constructor
    · intro h; cases h
    · rintro ⟨i, hi, _⟩; exact absurd (by omega : L ≤ (line.map Char.toUpper).length) hle

/-- Claim C7: in the Boilerplate Fuzzy Filter a line is removed as a whole
exactly when, for some window length in `T_LEN - 1`, `T_LEN`, `T_LEN + 1`, some
window of the upper-cased line, stripped of every character other than capital
letters and spaces, is within Levenshtein distance at most one of
`"CONGRESSIONAL RECORD"` (equal lengths: at most one differing position;
lengths differing by one: deleting one character of the longer gives the
shorter); in particular the line `"CONGRESSIOVAL RECORD"` is removed. -/
theorem claim_C7 :
    (∀ text, clean_speech_text text =
      List.intercalate ['\n']
        ((pySplitlines text).filter fun l => !(line_contains_fuzzy_target l))) ∧
    (∀ line, line_contains_fuzzy_target line = true ↔ FuzzyRemovableSpec line) ∧
    line_contains_fuzzy_target (toL "CONGRESSIOVAL RECORD") = true ∧
    FuzzyRemovableSpec (toL "CONGRESSIOVAL RECORD") := by
  refine ⟨fun _ => rfl, line_contains_fuzzy_target_iff, by decide, ?_⟩
  exact (line_contains_fuzzy_target_iff _).mp (by decide)

/-! ## Structure of `pySplitlines` output, for the idempotence claim -/

theorem mem_of_getLast?_eq {l : List Char} {c : Char} (h : l.getLast? = some c) :
    c ∈ l := by
  rcases List.mem_getLast?_eq_getLast (Option.mem_def.mpr h) with ⟨hne, heq⟩
  rw [heq]
  exact List.getLast_mem hne

theorem splitCharLines_no_break_eq : ∀ (l acc : List Char),
    (∀ c ∈ l, isLineBreakChar c = false) →
    splitCharLines acc l = if acc = [] ∧ l = [] then [] else [acc.reverse ++ l]
  | [], acc, _ => by
    by_cases h : acc = [] <;> simp [splitCharLines, h, List.isEmpty_iff]
  | c :: rest, acc, h => by
    have hc : isLineBreakChar c = false := h c (by simp)
    have ih := splitCharLines_no_break_eq rest (c :: acc) (fun d hd => h d (by simp [hd]))
    simp only [splitCharLines, hc, Bool.false_eq_true, if_false, ih]
    simp

theorem mergeCRLF_cons (x : List Char) (S : List (List Char))
    (hx : x.getLast? ≠ some '\r') : mergeCRLF (x :: S) = x :: mergeCRLF S := by
  cases S with
  | nil => rfl
  | cons l2 rest => simp [mergeCRLF, hx]

theorem dropLineEnd_concat_newline (content : List Char)
    (h : content.getLast? ≠ some '\r') : dropLineEnd (content ++ ['\n']) = content := by
  unfold dropLineEnd
  rw [List.getLast?_concat]
  simp [List.dropLast_concat, h, isLineBreakChar]

theorem dropLineEnd_no_break (l : List Char)
    (h : ∀ c ∈ l, isLineBreakChar c = false) : dropLineEnd l = l := by
  unfold dropLineEnd
  cases hl : l.getLast? with
  | none => rfl
  | some c =>
    have hc : isLineBreakChar c = false := h c (mem_of_getLast?_eq hl)
    have hcn : ¬(c = '\n') := by
      intro he; rw [he] at hc; exact absurd hc (by decide)
    simp [hcn, hc]

theorem no_break_getLast_ne_cr {l : List Char}
    (h : ∀ c ∈ l, isLineBreakChar c = false) : l.getLast? ≠ some '\r' := by
  intro hl
  have := h '\r' (mem_of_getLast?_eq hl)
  exact absurd this (by decide)

theorem splitCharLines_append_nl : ∀ (l acc rest : List Char),
    (∀ c ∈ l, isLineBreakChar c = false) →
    splitCharLines acc (l ++ '\n' :: rest) =
      (acc.reverse ++ l ++ ['\n']) :: splitCharLines [] rest
  | [], acc, rest, _ => by
    simp [splitCharLines, isLineBreakChar]
  | c :: l, acc, rest, h => by
    have hc : isLineBreakChar c = false := h c (by simp)
    have ih := splitCharLines_append_nl l (c :: acc) rest (fun d hd => h d (by simp [hd]))
    conv_lhs => rw [List.cons_append, splitCharLines]
    rw [if_neg (by simp [hc]), ih]
    simp

theorem pySplitlines_append_nl (l rest : List Char)
    (h : ∀ c ∈ l, isLineBreakChar c = false) :
    pySplitlines (l ++ '\n' :: rest) = l :: pySplitlines rest := by
  unfold pySplitlines pySplitlinesKeep
  rw [splitCharLines_append_nl l [] rest h]
  rw [List.reverse_nil, List.nil_append,
    mergeCRLF_cons _ _ (by rw [List.getLast?_concat]; simp)]
  rw [List.map_cons, dropLineEnd_concat_newline l (no_break_getLast_ne_cr h)]

theorem pySplitlines_intercalate : ∀ (ls : List (List Char)), ls ≠ [] →
    (∀ l ∈ ls, ∀ c ∈ l, isLineBreakChar c = false) →
    pySplitlines (List.intercalate ['\n'] ls) =
      if ls.getLast? = some [] then ls.dropLast else ls
  | [], h, _ => absurd rfl h
  | [l], _, hlf => by
    have hl : ∀ c ∈ l, isLineBreakChar c = false := hlf l (by simp)
    have h1 : List.intercalate ['\n'] [l] = l := by simp [List.intercalate]
    rw [h1]
    unfold pySplitlines pySplitlinesKeep
    rw [splitCharLines_no_break_eq l [] hl]
    by_cases he : l = []
    · subst he; simp [mergeCRLF]
    · simp only [List.reverse_nil, List.nil_append, true_and, he, if_false]
      rw [mergeCRLF_cons _ _ (no_break_getLast_ne_cr hl)]
      simp only [mergeCRLF, List.map_cons, List.map_nil,
        dropLineEnd_no_break l hl]
      simp [he]
  | l :: l2 :: rest, _, hlf => by
    have hl : ∀ c ∈ l, isLineBreakChar c = false := hlf l (by simp)
    have ih := pySplitlines_intercalate (l2 :: rest) (by simp)
      (fun m hm => hlf m (by simp [hm]))
    have h1 : List.intercalate ['\n'] (l :: l2 :: rest) =
        l ++ '\n' :: List.intercalate ['\n'] (l2 :: rest) := by
      simp [List.intercalate]
    rw [h1, pySplitlines_append_nl _ _ hl, ih]
    rw [show (l :: l2 :: rest).getLast? = (l2 :: rest).getLast? from
      List.getLast?_cons_cons]
    by_cases he : (l2 :: rest).getLast? = some []
    · simp only [he, if_true]
      rfl
    · simp only [he, if_false]

/-- Shape of a line produced by `pySplitlinesKeep`: line-break-free content
followed by an optional terminator (one break character, or `\r\n`). -/
def LineTermShape (l : List Char) : Prop :=
  ∃ content term, l = content ++ term ∧
    (∀ c ∈ content, isLineBreakChar c = false) ∧
    (term = [] ∨ (∃ c, term = [c] ∧ isLineBreakChar c = true) ∨ term = ['\r', '\n'])

theorem splitCharLines_shape : ∀ (input acc : List Char),
    (∀ c ∈ acc, isLineBreakChar c = false) →
    ∀ l ∈ splitCharLines acc input, LineTermShape l
  | [], acc, hacc => by
    intro l hl
    simp only [splitCharLines] at hl
    split at hl
    · simp at hl
    · simp only [List.mem_singleton] at hl
      subst hl
      exact ⟨acc.reverse, [], by simp, fun c hc => hacc c (by simpa using hc), Or.inl rfl⟩
  | c :: rest, acc, hacc => by
    intro l hl
    by_cases hc : isLineBreakChar c = true
    · rw [splitCharLines, if_pos hc] at hl
      rcases List.mem_cons.mp hl with rfl | hl2
      · exact ⟨acc.reverse, [c], rfl, fun d hd => hacc d (by simpa using hd),
          Or.inr (Or.inl ⟨c, rfl, hc⟩)⟩
      · exact splitCharLines_shape rest [] (by simp) l hl2
    · rw [splitCharLines, if_neg hc] at hl
      exact splitCharLines_shape rest (c :: acc)
        (by intro d hd
            rcases List.mem_cons.mp hd with rfl | hd2
            · exact Bool.not_eq_true _ ▸ (by simpa using hc)
            · exact hacc d hd2) l hl

theorem mergeCRLF_shape : ∀ (lls : List (List Char)),
    (∀ l ∈ lls, LineTermShape l) → ∀ l ∈ mergeCRLF lls, LineTermShape l
  | [], _ => by intro l hl; simp [mergeCRLF] at hl
  | [x], h => by
    intro l hl
    simp only [mergeCRLF, List.mem_singleton] at hl
    subst hl
    exact h l (by simp)
  | x :: x2 :: rest, h => by
    intro l hl
    rw [mergeCRLF] at hl
    split at hl
    · rename_i hcond
      have hx : x.getLast? = some '\r' := by
        have := (Bool.and_eq_true _ _).mp hcond
        exact of_decide_eq_true this.1
      rcases List.mem_cons.mp hl with rfl | hl2
      · rcases h x (by simp) with ⟨content, term, heq, hcf, hterm⟩
        rcases hterm with rfl | ⟨d, rfl, hd⟩ | rfl
        · rw [List.append_nil] at heq
          subst heq
          exact absurd (no_break_getLast_ne_cr hcf) (by simp [hx])
        · have : d = '\r' := by
            rw [heq, List.getLast?_concat] at hx
            exact (Option.some_inj.mp hx).symm ▸ rfl
          subst this
          exact ⟨content, ['\r', '\n'], by rw [heq]; simp, hcf, Or.inr (Or.inr rfl)⟩
        · rw [heq, show content ++ ['\r', '\n'] = (content ++ ['\r']) ++ ['\n'] from by simp,
            List.getLast?_concat] at hx
          exact absurd (Option.some_inj.mp hx) (by decide)
      · exact mergeCRLF_shape rest (fun m hm => h m (by simp [hm])) l hl2
    · rcases List.mem_cons.mp hl with rfl | hl2
      · exact h l (by simp)
      · exact mergeCRLF_shape (x2 :: rest) (fun m hm => h m (by simp [hm])) l hl2

theorem dropLineEnd_shape (l : List Char) (h : LineTermShape l) :
    ∀ c ∈ dropLineEnd l, isLineBreakChar c = false := by
  rcases h with ⟨content, term, rfl, hcf, hterm⟩
  rcases hterm with rfl | ⟨d, rfl, hd⟩ | rfl
  · rw [List.append_nil, dropLineEnd_no_break content hcf]
    exact hcf
  · unfold dropLineEnd
    rw [List.getLast?_concat]
    have hcr : ¬(d = '\n' ∧ content.getLast? = some '\r') := by
      rintro ⟨_, hr⟩
      exact absurd hr (no_break_getLast_ne_cr hcf)
    simp only [List.dropLast_concat, hcr, if_false, hd, if_true]
    exact hcf
  · unfold dropLineEnd
    rw [show content ++ ['\r', '\n'] = (content ++ ['\r']) ++ ['\n'] from by simp,
      List.getLast?_concat]
    simp only [List.dropLast_concat, List.getLast?_concat]
    simpa using hcf

theorem pySplitlines_no_break (t : List Char) :
    ∀ l ∈ pySplitlines t, ∀ c ∈ l, isLineBreakChar c = false := by
  intro l hl
  unfold pySplitlines pySplitlinesKeep at hl
  rcases List.mem_map.mp hl with ⟨m, hm, rfl⟩
  exact dropLineEnd_shape m (mergeCRLF_shape _ (splitCharLines_shape t [] (by simp)) m hm)

theorem pySplitlines_clean_sub (text : List Char) :
    ∀ l ∈ pySplitlines (clean_speech_text text),
      l ∈ (pySplitlines text).filter fun m => !(line_contains_fuzzy_target m) := by
  intro l hl
  unfold clean_speech_text at hl
  by_cases hne : ((pySplitlines text).filter fun m => !(line_contains_fuzzy_target m)) = []
  · rw [hne] at hl
    simp [List.intercalate, pySplitlines, pySplitlinesKeep, splitCharLines, mergeCRLF] at hl
  · rw [pySplitlines_intercalate _ hne
      (fun m hm c hc => pySplitlines_no_break text m (List.mem_of_mem_filter hm) c hc)] at hl
    split at hl
    · exact (List.dropLast_prefix _).subset hl
    · exact hl

/-- Claim C8, counterexample: `clean_speech_text` is not idempotent as a string
transformation.  On `"a\n\n"` the first pass keeps the lines `["a", ""]` and
joins them as `"a\n"`; the second pass splits `"a\n"` into the single line
`["a"]` and returns `"a"`. -/
theorem claim_C8_counterexample :
    clean_speech_text (clean_speech_text (toL "a\n\n")) ≠
      clean_speech_text (toL "a\n\n") := by decide

/-- Claim C8, amended: the second pass of the Boilerplate Fuzzy Filter removes
no lines (every line of the first pass's output passes the filter), and the
output string is unchanged whenever the kept lines do not end with an empty
line; the string can only differ by losing a trailing empty line, as the
counterexample shows. -/
theorem claim_C8_amended :
    (∀ text, ((pySplitlines (clean_speech_text text)).filter
        fun l => !(line_contains_fuzzy_target l)) =
      pySplitlines (clean_speech_text text)) ∧
    (∀ text,
      ((pySplitlines text).filter fun l => !(line_contains_fuzzy_target l)).getLast?
          ≠ some [] →
      clean_speech_text (clean_speech_text text) = clean_speech_text text) := by
  constructor
  · intro text
    exact List.filter_eq_self.mpr fun l hl => by
      simpa using List.of_mem_filter (pySplitlines_clean_sub text l hl)
  · intro text hlast
    by_cases hne : ((pySplitlines text).filter fun l => !(line_contains_fuzzy_target l)) = []
    · have h0 : clean_speech_text text = [] := by
        unfold clean_speech_text
        rw [hne]
        rfl
      rw [h0]
      rfl
    · have hkeep : ∀ m ∈ (pySplitlines text).filter
            (fun l => !(line_contains_fuzzy_target l)), ∀ c ∈ m, isLineBreakChar c = false :=
        fun m hm c hc => pySplitlines_no_break text m (List.mem_of_mem_filter hm) c hc
      have hsplit : pySplitlines (clean_speech_text text) =
          (pySplitlines text).filter fun l => !(line_contains_fuzzy_target l) := by
        unfold clean_speech_text
        rw [pySplitlines_intercalate _ hne hkeep, if_neg hlast]
      have houter : clean_speech_text (clean_speech_text text) =
          List.intercalate ['\n'] ((pySplitlines (clean_speech_text text)).filter
            fun l => !(line_contains_fuzzy_target l)) := rfl
      rw [houter, hsplit,
        List.filter_eq_self.mpr fun m hm => by simpa using List.of_mem_filter hm]
      rfl

/-- Witness for the amended claim C8 at the concrete input `"hello\n"`. -/
theorem claim_C8_amended_witness :
    (((pySplitlines (toL "hello\n")).filter
        fun l => !(line_contains_fuzzy_target l)).getLast? ≠ some []) ∧
    clean_speech_text (clean_speech_text (toL "hello\n")) =
      clean_speech_text (toL "hello\n") :=
  ⟨by decide, claim_C8_amended.2 (toL "hello\n") (by decide)⟩

/-! ## Embedding of `speaker_scraper.py`: NOTE-block stripping -/

/-- `EQUALS_REGEX.match(ln)`: the line starts with optional spaces and tabs
followed by at least five equals signs (pattern `[ \t]*={5,}` anchored at the
line start, with an arbitrary remainder). -/
def isEqualsLine (l : List Char) : Bool :=
  decide (5 ≤ ((l.dropWhile fun c => c == ' ' || c == '\t').takeWhile
    fun c => c == '=').length)

/-- The line loop of `_strip_note_blocks`: the `skip` flag toggles at each
marker line; marker lines are always kept, other lines are kept only while
`skip` is off. -/
def stripNoteLines (skip : Bool) : List (List Char) → List (List Char)
  | [] => []
  | ln :: rest =>
    if isEqualsLine ln then ln :: stripNoteLines (!skip) rest
    else if skip then stripNoteLines skip rest
    else ln :: stripNoteLines skip rest

/-- `_strip_note_blocks(text)` from `speaker_scraper.py`: split into lines with
terminators, run the skip-flag loop, and join the kept lines back together. -/
def strip_note_blocks (text : List Char) : List Char :=
  (stripNoteLines false (pySplitlinesKeep text)).flatten

/-- The value of the `skip` flag after the loop of `_strip_note_blocks` has
consumed the given lines. -/
def skipAfter (skip : Bool) : List (List Char) → Bool
  | [] => skip
  | ln :: rest => skipAfter (if isEqualsLine ln then !skip else skip) rest

theorem stripNoteLines_append : ∀ (pre : List (List Char)) (skip : Bool) (suf),
    stripNoteLines skip (pre ++ suf) =
      stripNoteLines skip pre ++ stripNoteLines (skipAfter skip pre) suf
  | [], skip, suf => rfl
  | ln :: rest, skip, suf => by
    by_cases hm : isEqualsLine ln = true
    · simp only [List.cons_append, stripNoteLines, hm, if_true, skipAfter]
      exact congrArg (ln :: .) (stripNoteLines_append rest (!skip) suf)
    · cases skip with
      | true =>
        simp only [List.cons_append, stripNoteLines, hm, Bool.false_eq_true, if_false,
          if_true, skipAfter]
        exact stripNoteLines_append rest true suf
      | false =>
        simp only [List.cons_append, stripNoteLines, hm, Bool.false_eq_true, if_false,
          skipAfter]
        exact congrArg (ln :: .) (stripNoteLines_append rest false suf)

theorem skipAfter_parity : ∀ (pre : List (List Char)) (skip : Bool),
    skipAfter skip pre = xor skip (decide ((pre.countP isEqualsLine) % 2 = 1))
  | [], skip => by simp [skipAfter]
  | ln :: rest, skip => by
    by_cases hm : isEqualsLine ln = true
    · rw [skipAfter, if_pos hm, skipAfter_parity rest (!skip), List.countP_cons_of_pos _ _ hm]
      rcases Nat.even_or_odd (rest.countP isEqualsLine) with he | ho
      · have h1 : rest.countP isEqualsLine % 2 = 0 := Nat.even_iff.mp he
        have h2 : (rest.countP isEqualsLine + 1) % 2 = 1 := by omega
        simp only [h1, h2]
        cases skip <;> rfl
      · have h1 : rest.countP isEqualsLine % 2 = 1 := Nat.odd_iff.mp ho
        have h2 : (rest.countP isEqualsLine + 1) % 2 = 0 := by omega
        simp only [h1, h2]
        cases skip <;> rfl
    · rw [skipAfter, if_neg hm, skipAfter_parity rest skip,
        List.countP_cons_of_neg _ _ hm]

theorem stripNoteLines_skip_all (suf : List (List Char))
    (h : ∀ l ∈ suf, isEqualsLine l = false) : stripNoteLines true suf = [] := by
  induction suf with
  | nil => rfl
  | cons ln rest ih =>
    have hm : isEqualsLine ln = false := h ln (by simp)
    rw [stripNoteLines, if_neg (by simp [hm]), if_pos rfl]
    exact ih fun l hl => h l (by simp [hl])

/-- Claim C10: if the lines consumed so far contain an odd number of
equals-marker lines, every following marker-free line is dropped by
`_strip_note_blocks` — all content after an unpaired marker is discarded. -/
theorem claim_C10 (pre suf : List (List Char))
    (hodd : (pre.countP isEqualsLine) % 2 = 1)
    (hsuf : ∀ l ∈ suf, isEqualsLine l = false) :
    stripNoteLines false (pre ++ suf) = stripNoteLines false pre := by
  rw [stripNoteLines_append, skipAfter_parity, hodd]
  rw [show xor false (decide (1 = 1)) = true from rfl]
  rw [stripNoteLines_skip_all suf hsuf, List.append_nil]

/-- Witness for claim C10: with markers at lines 0 and 2 (odd count 1 after the
first marker region shown), the trailing content line is dropped. -/
theorem claim_C10_witness :
    ((pySplitlinesKeep (toL "=====\nA\n")).countP isEqualsLine) % 2 = 1 ∧
    (∀ l ∈ pySplitlinesKeep (toL "B\nC\n"), isEqualsLine l = false) ∧
    stripNoteLines false
        (pySplitlinesKeep (toL "=====\nA\n") ++ pySplitlinesKeep (toL "B\nC\n")) =
      stripNoteLines false (pySplitlinesKeep (toL "=====\nA\n")) :=
  ⟨by decide, by decide,
    claim_C10 _ _ (by decide) (by decide)⟩

/-- The NOTE-block removal rule as the claim words it: a marker line is always
kept, and a non-marker line is removed exactly when some marker line lies
before it and some marker line lies after it. -/
def noteStripSpec (lines : List (List Char)) : List (List Char) :=
  (List.range lines.length).filterMap fun i =>
    let l := lines.getD i []
    if isEqualsLine l then some l
    else if (lines.take i).any isEqualsLine && (lines.drop (i + 1)).any isEqualsLine then
      none
    else some l

/-- Claim C4, counterexample: on a transcript with three marker lines the code
keeps the content between the second and third markers, while the claim
(content strictly between two consecutive markers is removed) would drop it. -/
theorem claim_C4_counterexample :
    strip_note_blocks (toL "=====\nA\n=====\nB\n=====\n") ≠
      (noteStripSpec (pySplitlinesKeep (toL "=====\nA\n=====\nB\n=====\n"))).flatten := by
  decide

/-! ## Embedding of `parse_CRECB_data/3-add_debate_titles.py`: section mapping -/

/-- A title block `(text, start, end)` as produced by `find_titles`. -/
structure TitleBlock where
  text : List Char
  start : Nat
  stop : Nat
deriving DecidableEq

/-- A derived section `(title, sec_start, sec_end)` as produced by
`extract_sections`. -/
structure DebateSection where
  title : List Char
  start : Nat
  stop : Nat
deriving DecidableEq

/-- `extract_sections(text, titles)`: section `i` runs from title `i`'s end
offset to title `i+1`'s start offset; the last section runs to `len(text)`;
each section's title is the stripped block text. -/
def extract_sections (text : List Char) : List TitleBlock → List DebateSection
  | [] => []
  | [t] => [⟨pyStrip t.text, t.stop, text.length⟩]
  | t :: t2 :: rest => ⟨pyStrip t.text, t.stop, t2.start⟩ :: extract_sections text (t2 :: rest)

/-- The half-open containment test `s_start <= pos < s_end` of the assignment
loop in `worker_process`. -/
def SecContains (s : DebateSection) (pos : Nat) : Prop :=
  s.start ≤ pos ∧ pos < s.stop

/-- The title-assignment loop of `worker_process`: the first section whose
half-open span contains `pos` provides the title (stripped again by
`t.strip()`); if none does, the assigned title is empty. -/
def assignTitle (sections : List DebateSection) (pos : Nat) : List Char :=
  match sections.find? (fun s => decide (s.start ≤ pos) && decide (pos < s.stop)) with
  | some s => pyStrip s.title
  | none => []

theorem assign_pred_iff (pos : Nat) (s : DebateSection) :
    (decide (s.start ≤ pos) && decide (pos < s.stop)) = true ↔
      SecContains s pos := by
  simp [SecContains]

theorem extract_sections_length (text : List Char) : ∀ (titles : List TitleBlock),
    (extract_sections text titles).length = titles.length
  | [] => rfl
  | [_] => rfl
  | _ :: t2 :: rest => by
    rw [extract_sections, List.length_cons, extract_sections_length text (t2 :: rest)]
    rfl

theorem extract_sections_get? (text : List Char) : ∀ (titles : List TitleBlock)
    (i : Nat) (hi : i < titles.length),
    (extract_sections text titles).get? i =
      some ⟨pyStrip ((titles.get ⟨i, hi⟩).text), (titles.get ⟨i, hi⟩).stop,
        if h : i + 1 < titles.length then (titles.get ⟨i + 1, h⟩).start
        else text.length⟩
  | [], i, hi => absurd hi (by simp)
  | [t], 0, _ => by simp [extract_sections]
  | [t], i + 1, hi => absurd hi (by simp)
  | t :: t2 :: rest, 0, _ => by
    simp [extract_sections, List.get]
  | t :: t2 :: rest, i + 1, hi => by
    have hi2 : i < (t2 :: rest).length := by
      simpa using Nat.lt_of_succ_lt_succ hi
    rw [extract_sections, List.get?_cons_succ,
      extract_sections_get? text (t2 :: rest) i hi2]
    simp only [List.get_cons_succ]
    by_cases h2 : i + 1 < (t2 :: rest).length
    · rw [dif_pos h2, dif_pos (show i + 1 + 1 < (t :: t2 :: rest).length by
        simpa using Nat.succ_lt_succ h2)]
    · rw [dif_neg h2, dif_neg (by
        intro hcon
        exact h2 (by simpa using Nat.lt_of_succ_lt_succ hcon))]

/-- Well-ordered sections: over an ordered title list, the produced sections
are pairwise ordered (each ends before the next begins), and every section
begins at or after the first title's end. -/
theorem extract_sections_ordered (text : List Char) : ∀ (titles : List TitleBlock),
    (∀ t ∈ titles, t.start ≤ t.stop) →
    List.Chain' (fun a b => a.stop ≤ b.start) titles →
    List.Pairwise (fun a b => a.stop ≤ b.start) (extract_sections text titles) ∧
    (∀ s ∈ extract_sections text titles,
      ∀ t0, titles.head? = some t0 → t0.stop ≤ s.start)
  | [], _, _ => by simp [extract_sections]
  | [t], _, _ => by
    constructor
    · simp [extract_sections]
    · intro s hs t0 h0
      simp only [extract_sections, List.mem_singleton] at hs
      simp only [List.head?_cons, Option.some_inj] at h0
      subst hs; subst h0
      exact le_refl _
  | t :: t2 :: rest, hwf, hord => by
    have hwf2 : ∀ u ∈ t2 :: rest, u.start ≤ u.stop :=
      fun u hu => hwf u (by simp [hu])
    have hord2 : List.Chain' (fun a b => a.stop ≤ b.start) (t2 :: rest) :=
      (List.chain'_cons'.mp hord).2
    have ht12 : t.stop ≤ t2.start := by
      have := List.chain'_cons.mp hord
      exact this.1
    obtain ⟨ihpw, ihb⟩ := extract_sections_ordered text (t2 :: rest) hwf2 hord2
    constructor
    · rw [extract_sections]
      refine List.pairwise_cons.mpr ⟨?_, ihpw⟩
      intro s hs
      have hb := ihb s hs t2 (by simp)
      calc t2.start ≤ t2.stop := hwf2 t2 (by simp)
        _ ≤ s.start := hb
    · intro s hs t0 h0
      simp only [List.head?_cons, Option.some_inj] at h0
      subst h0
      rw [extract_sections] at hs
      rcases List.mem_cons.mp hs with rfl | hs2
      · exact le_refl _
      · have hb := ihb s hs2 t2 (by simp)
        calc t.stop ≤ t2.start := ht12
          _ ≤ t2.stop := hwf2 t2 (by simp)
          _ ≤ s.start := hb

/-- Claim C3: over any transcript and ordered title-block list, section `i`
spans from title `i`'s end to title `i+1`'s start (the last section extending
to the end of the transcript); at most one section's half-open span contains a
given offset (a turn starting exactly at a section start belongs to that
section); the assigned title is that unique section's (stripped) title; and an
offset contained in no section is assigned the empty title. -/
theorem claim_C3 (text : List Char) (titles : List TitleBlock)
    (hwf : ∀ t ∈ titles, t.start ≤ t.stop)
    (hord : List.Chain' (fun a b => a.stop ≤ b.start) titles) (pos : Nat) :
    ((extract_sections text titles).length = titles.length ∧
      ∀ i (hi : i < titles.length),
        (extract_sections text titles).get? i =
          some ⟨pyStrip ((titles.get ⟨i, hi⟩).text), (titles.get ⟨i, hi⟩).stop,
            if h : i + 1 < titles.length then (titles.get ⟨i + 1, h⟩).start
            else text.length⟩) ∧
    (∀ i j, SecContains ((extract_sections text titles).getD i ⟨[], 0, 0⟩) pos →
      SecContains ((extract_sections text titles).getD j ⟨[], 0, 0⟩) pos → i = j) ∧
    (∀ i, SecContains ((extract_sections text titles).getD i ⟨[], 0, 0⟩) pos →
      assignTitle (extract_sections text titles) pos =
        pyStrip ((extract_sections text titles).getD i ⟨[], 0, 0⟩).title) ∧
    ((∀ s ∈ extract_sections text titles, ¬ SecContains s pos) →
      assignTitle (extract_sections text titles) pos = []) := by
  have hpw := (extract_sections_ordered text titles hwf hord).1
  have hgetpw := List.pairwise_iff_get.mp hpw
  have hdefault : ¬ SecContains (⟨[], 0, 0⟩ : DebateSection) pos := by
    rintro ⟨_, h⟩; exact absurd h (Nat.not_lt_zero pos)
  have huniq : ∀ i j, SecContains ((extract_sections text titles).getD i ⟨[], 0, 0⟩) pos →
      SecContains ((extract_sections text titles).getD j ⟨[], 0, 0⟩) pos → i = j := by
    intro i j hci hcj
    by_cases hi : i < (extract_sections text titles).length
    · by_cases hj : j < (extract_sections text titles).length
      · rw [List.getD_eq_getElem _ _ hi] at hci
        rw [List.getD_eq_getElem _ _ hj] at hcj
        rcases Nat.lt_trichotomy i j with hij | hij | hij
        · exfalso
          have hle := hgetpw ⟨i, hi⟩ ⟨j, hj⟩ hij
          simp only [List.get_eq_getElem] at hle
          have h1 := hci.2
          have h2 := hcj.1
          omega
        · exact hij
        · exfalso
          have hle := hgetpw ⟨j, hj⟩ ⟨i, hi⟩ hij
          simp only [List.get_eq_getElem] at hle
          have h1 := hcj.2
          have h2 := hci.1
          omega
      · rw [List.getD_eq_default _ _ (by omega)] at hcj
        exact absurd hcj hdefault
    · rw [List.getD_eq_default _ _ (by omega)] at hci
      exact absurd hci hdefault
  refine ⟨⟨extract_sections_length text titles, extract_sections_get? text titles⟩,
    huniq, ?_, ?_⟩
  · intro i hci
    by_cases hi : i < (extract_sections text titles).length
    · have hmem : (extract_sections text titles).getD i ⟨[], 0, 0⟩ ∈
          extract_sections text titles := by
        rw [List.getD_eq_getElem _ _ hi]
        exact List.getElem_mem hi
      have hsome : ((extract_sections text titles).find?
          (fun s => decide (s.start ≤ pos) && decide (pos < s.stop))).isSome := by
        rw [List.find?_isSome]
        exact ⟨_, hmem, (assign_pred_iff pos _).mpr hci⟩
      obtain ⟨s, hfind⟩ := Option.isSome_iff_exists.mp hsome
      have hpred := List.find?_some hfind
      have hps : SecContains s pos := (assign_pred_iff pos s).mp hpred
      have hsmem : s ∈ extract_sections text titles := List.mem_of_find?_eq_some hfind
      obtain ⟨n, hsj⟩ := List.mem_iff_get.mp hsmem
      have hj' : SecContains ((extract_sections text titles).getD n.val ⟨[], 0, 0⟩) pos := by
        rw [List.getD_eq_getElem _ _ n.isLt]
        rw [show (extract_sections text titles)[n.val] = s from by
          rw [← hsj]; simp [List.get_eq_getElem]]
        exact hps
      have hij : i = n.val := huniq i n.val hci hj'
      have hsel : (extract_sections text titles).getD i ⟨[], 0, 0⟩ = s := by
        rw [hij, List.getD_eq_getElem _ _ n.isLt, ← hsj]
        simp [List.get_eq_getElem]
      unfold assignTitle
      rw [hfind, hsel]
    · rw [List.getD_eq_default _ _ (by omega)] at hci
      exact absurd hci hdefault
  · intro hnone
    unfold assignTitle
    rw [List.find?_eq_none.mpr]
    intro s hs
    rw [assign_pred_iff]
    exact hnone s hs

/-- Witness for claim C3 at a concrete transcript, title list and offset. -/
theorem claim_C3_witness :
    (∀ t ∈ [(⟨toL "TITLE ONE\n", 5, 15⟩ : TitleBlock), ⟨toL "TITLE TWO\n", 30, 40⟩],
      t.start ≤ t.stop) ∧
    List.Chain' (fun a b => a.stop ≤ b.start)
      [(⟨toL "TITLE ONE\n", 5, 15⟩ : TitleBlock), ⟨toL "TITLE TWO\n", 30, 40⟩] ∧
    (∀ i, SecContains ((extract_sections (toL "0123456789012345678901234567890123456789012345678901234567890123")
        [⟨toL "TITLE ONE\n", 5, 15⟩, ⟨toL "TITLE TWO\n", 30, 40⟩]).getD i ⟨[], 0, 0⟩) 20 →
      assignTitle (extract_sections (toL "0123456789012345678901234567890123456789012345678901234567890123")
        [⟨toL "TITLE ONE\n", 5, 15⟩, ⟨toL "TITLE TWO\n", 30, 40⟩]) 20 =
        pyStrip ((extract_sections (toL "0123456789012345678901234567890123456789012345678901234567890123")
          [⟨toL "TITLE ONE\n", 5, 15⟩, ⟨toL "TITLE TWO\n", 30, 40⟩]).getD i ⟨[], 0, 0⟩).title) :=
  ⟨by decide, by rw [List.chain'_pair]; decide,
    (claim_C3 (toL "0123456789012345678901234567890123456789012345678901234567890123")
      [⟨toL "TITLE ONE\n", 5, 15⟩, ⟨toL "TITLE TWO\n", 30, 40⟩]
      (by decide) (by rw [List.chain'_pair]; decide) 20).2.2.1⟩

/-! ## Embedding of `speaker_scraper.py`: artifact stripping

`_clean_extraneous` applies seven regex substitutions (`EXTRAS_PATTERNS`) in
order, each once, replacing every non-overlapping leftmost match by the empty
string.  Each pattern is embedded as a match-at-position function returning
the number of characters the leftmost-anchored match consumes. -/

/-- The phrase required inside the parenthetical of `EXTRAS_PATTERNS[0]`. -/
def PERMISSION_PHRASE : List Char := toL "asked and was given permission"

/-- Find the first index (from `k`) at which `pat` occurs as a contiguous
substring. -/
def findSubIdxAux (pat : List Char) : List Char → Nat → Option Nat
  | [], k => if pat.isEmpty then some k else none
  | c :: rest, k =>
    if pat.isPrefixOf (c :: rest) then some k else findSubIdxAux pat rest (k + 1)

/-- Does `pat` occur as a contiguous substring of `s`? -/
def containsSub (pat s : List Char) : Bool := (findSubIdxAux pat s 0).isSome

/-- Pattern `\([^)]*asked and was given permission[^)]*\)\s*` anchored here:
an opening parenthesis whose body (up to the first closing parenthesis)
contains the permission phrase, plus trailing whitespace. -/
def matchPermissionAt (s : List Char) : Option Nat :=
  match s with
  | [] => none
  | c :: rest =>
    if c = '(' then
      match rest.findIdx? (fun d => d == ')') with
      | none => none
      | some j =>
        if containsSub PERMISSION_PHRASE (rest.take j) then
          some (1 + j + 1 + ((rest.drop (j + 1)).takeWhile isPyWs).length)
        else none
    else none

/-- Pattern `[-_]{3,}` anchored here: a run of at least three hyphens or
underscores (taken greedily). -/
def matchDashRunAt (s : List Char) : Option Nat :=
  let n := (s.takeWhile fun c => c == '-' || c == '_').length
  if 3 ≤ n then some n else none

/-- Pattern `\{time\}\s*\d{2,4}` anchored here. -/
def matchTimeAt (s : List Char) : Option Nat :=
  if (toL "\x7btime\x7d").isPrefixOf s then
    let rest := s.drop 6
    let w := (rest.takeWhile isPyWs).length
    let d := ((rest.drop w).takeWhile Char.isDigit).length
    if 2 ≤ d then some (6 + w + min d 4) else none
  else none

/-- Pattern `\[Roll[^\]\r\n]*\]` anchored here. -/
def matchRollAt (s : List Char) : Option Nat :=
  if (toL "[Roll").isPrefixOf s then
    let rest := s.drop 5
    let body := rest.takeWhile fun c => !(c == ']' || c == '\r' || c == '\n')
    match (rest.drop body.length).head? with
    | some c => if c = ']' then some (5 + body.length + 1) else none
    | none => none
  else none

/-- Pattern `\[\[Page [A-Za-z0-9]{1,10}\]\]` anchored here: the alphanumeric
run after `[[Page ` must have length 1 to 10 and be followed by `]]`
(a longer run admits no match at this position, by backtracking). -/
def matchPageAt (s : List Char) : Option Nat :=
  if (toL "[[Page ").isPrefixOf s then
    let rest := s.drop 7
    let r := (rest.takeWhile fun c => c.isAlphanum).length
    if 1 ≤ r ∧ r ≤ 10 ∧ (toL "]]").isPrefixOf (rest.drop r) then some (7 + r + 2)
    else none
  else none

/-- Pattern `<title>.*?</title>` (case-insensitive, dot matches newline)
anchored here: the non-greedy body ends at the earliest closing tag. -/
def matchTitleTagAt (s : List Char) : Option Nat :=
  if (toL "<title>").isPrefixOf (s.map Char.toLower) then
    match findSubIdxAux (toL "</title>") ((s.drop 7).map Char.toLower) 0 with
    | some k => some (7 + k + 8)
    | none => none
  else none

/-- Helper for `matchTagAt`: `[^>]+>` anchored here. -/
def matchTagBody (rest : List Char) : Option Nat :=
  let k := (rest.takeWhile fun d => !(d == '>')).length
  if 1 ≤ k ∧ (rest.drop k).head? = some '>' then some (k + 1) else none

/-- Pattern `</?[^>]+>` anchored here; if consuming the optional slash leaves
an empty tag body, backtracking lets the slash count as body instead. -/
def matchTagAt (s : List Char) : Option Nat :=
  match s with
  | [] => none
  | c :: rest =>
    if c = '<' then
      match rest.head? with
      | some d =>
        if d = '/' then
          match matchTagBody (rest.drop 1) with
          | some k => some (1 + 1 + k)
          | none => (matchTagBody rest).map (1 + ·)
        else (matchTagBody rest).map (1 + ·)
      | none => none
    else none

/-- One global substitution pass (`pat.sub('', text)`): scan left to right,
delete each leftmost match and resume after it. -/
def gsub (matchAt : List Char → Option Nat) : Nat → List Char → List Char
  | 0, s => s
  | fuel + 1, s =>
    match s with
    | [] => []
    | c :: rest =>
      match matchAt s with
      | some k => if k = 0 then c :: gsub matchAt fuel rest
                  else gsub matchAt fuel (s.drop k)
      | none => c :: gsub matchAt fuel rest

/-- `pat.sub('', s)` with enough fuel for the whole string. -/
def pySub (matchAt : List Char → Option Nat) (s : List Char) : List Char :=
  gsub matchAt s.length s

/-- `_clean_extraneous(text)`: the seven `EXTRAS_PATTERNS` substitutions in
source order (permission parenthetical, dash runs, time stamps, roll-call
brackets, page-break brackets, title tags, generic markup tags). -/
def clean_extraneous (text : List Char) : List Char :=
  pySub matchTagAt (pySub matchTitleTagAt (pySub matchPageAt (pySub matchRollAt
    (pySub matchTimeAt (pySub matchDashRunAt (pySub matchPermissionAt text))))))

/-- Claim C5, counterexample: on `"[[Page [[Page A1]]A1]]"` one pass of the
Artifact Stripper leaves `"[[Page A1]]"`, which still matches the page-break
pattern, and a second pass removes more — so the patterns are not applied
exhaustively and the output is not free of page-break matches. -/
theorem claim_C5_counterexample :
    clean_extraneous (clean_extraneous (toL "[[Page [[Page A1]]A1]]")) ≠
      clean_extraneous (toL "[[Page [[Page A1]]A1]]") := by decide

/-- Claim C5, amended: each pattern is applied in one global substitution pass
(all leftmost non-overlapping matches removed); a removal can splice the
surrounding text into a fresh page-break match, which survives the pass — on
`"[[Page [[Page A1]]A1]]"` the stripper returns `"[[Page A1]]"`, itself a full
page-break match (consuming all 11 characters), and only a further application
removes it. -/
theorem claim_C5_amended :
    clean_extraneous (toL "[[Page [[Page A1]]A1]]") = toL "[[Page A1]]" ∧
    matchPageAt (toL "[[Page A1]]") = some 11 ∧
    clean_extraneous (toL "[[Page A1]]") = [] :=
  ⟨by decide, by decide, by decide⟩

/-! ## Embedding of `parse_CRECB_data/3-add_debate_titles.py`: title detection -/

/-- The punctuation set stripped from token ends by `normalize_token`. -/
def TOKEN_STRIP_CHARS : List Char := toL ",.;:!?—–-()[]\x7b\x7d<>\"'`"

/-- `normalize_token(token)`. -/
def normalize_token (t : List Char) : List Char :=
  stripCharsBoth (fun c => TOKEN_STRIP_CHARS.contains c) t

/-- `is_allcaps_alpha_word(token)`: after normalisation, at least two letters,
no lowercase letter, and at least one uppercase letter. -/
def is_allcaps_alpha_word (token : List Char) : Bool :=
  let cleaned := normalize_token token
  if (cleaned.filter Char.isAlpha).length < 2 then false
  else if cleaned.any Char.isLower then false
  else cleaned.any Char.isUpper

/-- The letter and uppercase-letter counts accumulated by
`percent_uppercase_alpha(line, skip_words)`: tokens whose lower-cased letter
content is in `skip` are ignored. -/
def pct_letters_upper (line : List Char) (skip : List (List Char)) : Nat × Nat :=
  (pySplitWs line).foldl
    (fun acc token =>
      let base := token.filter Char.isAlpha
      if skip.contains (base.map Char.toLower) then acc
      else (acc.1 + base.length, acc.2 + (base.filter Char.isUpper).length))
    (0, 0)

/-- The comparison `percent_uppercase_alpha(line, skip_words) >= 0.60`:
with zero letters the source returns `0.0` (below the threshold); otherwise
`upper/letters >= 0.60`, which for the list sizes in range agrees exactly with
the rational comparison `3 * letters <= 5 * upper`. -/
def pctUpperGE60 (line : List Char) (skip : List (List Char)) : Bool :=
  let p := pct_letters_upper line skip
  decide (0 < p.1) && decide (3 * p.1 ≤ 5 * p.2)

/-- Runs of consecutive ASCII letters: `re.findall(r"[A-Za-z]+", l)`. -/
def alphaRunsAux (acc : List Char) : List Char → List (List Char)
  | [] => if acc.isEmpty then [] else [acc.reverse]
  | c :: rest =>
    if Char.isAlpha c then alphaRunsAux (c :: acc) rest
    else if acc.isEmpty then alphaRunsAux [] rest
    else acc.reverse :: alphaRunsAux [] rest

/-- `re.findall(r"[A-Za-z]+", l)`. -/
def alphaRuns (l : List Char) : List (List Char) := alphaRunsAux [] l

/-- The keyword set of `exclude_line`. -/
def EXCLUDE_KEY_WORDS : List (List Char) :=
  [toL "gpo", toL "authenticated", toL "authentication", toL "authentic",
    toL "information"]

/-- `exclude_line(line)`: organisational boilerplate detection. -/
def exclude_line (line : List Char) : Bool :=
  let l := line.map Char.toLower
  let cleaned := l.filter Char.isLower
  if containsSub (toL "congressionalrecord") cleaned then true
  else if cleaned = toL "usgovernment" ∨ cleaned = toL "usgoverment" then true
  else
    let words := alphaRuns l
    decide (words ≠ []) && words.all fun w => EXCLUDE_KEY_WORDS.contains w

/-- The first line (stripped) of the list whose stripped form is non-empty:
the look-ahead loop `while lines[j].strip() == "": j += 1` of `find_titles`. -/
def firstNonblank : List (List Char) → Option (List Char)
  | [] => none
  | l :: rest => if pyStrip l = [] then firstNonblank rest else some (pyStrip l)

/-- The look-ahead test of `find_titles` as the source implements it: the next
non-blank line must have at least 8 letters and at least 60 percent of its
(non-skip) letters uppercase.  (No word-count requirement.) -/
def lookaheadOk (rest : List (List Char)) : Bool :=
  match firstNonblank rest with
  | none => false
  | some look =>
    decide (8 ≤ (look.filter Char.isAlpha).length) && pctUpperGE60 look [toL "report"]

/-- The look-ahead test as the claim words it: the next non-blank line must be
heading-like, i.e. have at least 8 letters, at least 2 alphabetic words, and
at least 60 percent of its (non-skip) letters uppercase. -/
def lookaheadClaimB (rest : List (List Char)) : Bool :=
  match firstNonblank rest with
  | none => false
  | some look =>
    decide (8 ≤ (look.filter Char.isAlpha).length) &&
    decide (2 ≤ ((pySplitWs look).filter fun w => w.any Char.isAlpha).length) &&
    pctUpperGE60 look [toL "report"]

/-- The end offset of the last block line, `block[-1][2]`. -/
def blockEnd (block : List (List Char × Nat × Nat)) : Nat :=
  (block.getLastD ([], 0, 0)).2.2

/-- Closing a candidate block in `find_titles`: an empty block emits nothing; a
block whose left-stripped text starts with a courtesy title is discarded;
otherwise one `TitleBlock` is emitted spanning the first line's start to the
last line's end. -/
def closeBlock (block : List (List Char × Nat × Nat)) (blockStart : Nat) :
    List TitleBlock :=
  if block.isEmpty then []
  else
    let btext := (block.map fun x => x.1).flatten
    let st := pyStripLeft btext
    if (toL "Mr.").isPrefixOf st || (toL "Ms.").isPrefixOf st ||
        (toL "Mrs.").isPrefixOf st then []
    else [⟨btext, blockStart, blockEnd block⟩]

/-- The line loop of `find_titles`, parameterised by the look-ahead test
`lookA` used at a blank line inside an open block (the source uses
`lookaheadOk`).  State: running offset, open block with its start offset, and
the remaining lines. -/
def findTitlesAux (lookA : List (List Char) → Bool) :
    Nat → List (List Char × Nat × Nat) → Nat → List (List Char) → List TitleBlock
  | _, block, blockStart, [] => closeBlock block blockStart
  | offset, block, blockStart, line :: rest =>
    let stripped := pyStrip line
    let lineEnd := offset + line.length
    if stripped = [] ∧ ¬block.isEmpty then
      if lookA rest then
        findTitlesAux lookA lineEnd (block ++ [(line, offset, lineEnd)]) blockStart rest
      else
        closeBlock block blockStart ++ findTitlesAux lookA lineEnd [] blockStart rest
    else if exclude_line line then
      closeBlock block blockStart ++ findTitlesAux lookA lineEnd [] blockStart rest
    else
      let pctOk := pctUpperGE60 stripped [toL "report"]
      let capWords := ((pySplitWs stripped).filter is_allcaps_alpha_word).length
      let alphaWords := ((pySplitWs stripped).filter fun w => w.any Char.isAlpha).length
      let alphaChars := (stripped.filter Char.isAlpha).length
      let isStrong := decide (2 ≤ alphaWords) && pctOk && decide (8 ≤ alphaChars)
      let isShortFinal := decide (alphaWords = 1) && decide (1 ≤ capWords)
      if isStrong then
        if block.isEmpty then
          findTitlesAux lookA lineEnd [(line, offset, lineEnd)] offset rest
        else
          findTitlesAux lookA lineEnd (block ++ [(line, offset, lineEnd)]) blockStart rest
      else if ¬block.isEmpty ∧ isShortFinal = true then
        findTitlesAux lookA lineEnd (block ++ [(line, offset, lineEnd)]) blockStart rest
      else
        closeBlock block blockStart ++ findTitlesAux lookA lineEnd [] blockStart rest

/-- `find_titles(text)` from `3-add_debate_titles.py`. -/
def find_titles (text : List Char) : List TitleBlock :=
  findTitlesAux lookaheadOk 0 [] 0 (pySplitlinesKeep text)

/-- `find_titles` as the claim describes it, differing only in the blank-line
look-ahead, which additionally requires at least 2 alphabetic words. -/
def findTitlesClaimVer (text : List Char) : List TitleBlock :=
  findTitlesAux lookaheadClaimB 0 [] 0 (pySplitlinesKeep text)

/-- The look-ahead condition of the amended claim C6: the remaining lines
begin with zero or more blank lines followed by a non-blank line that has at
least 8 letters, of which at least 60 percent (outside skip words) are
uppercase — with no requirement on its word count. -/
def NextNonblankHeadingish (rest : List (List Char)) : Prop :=
  ∃ pre l post, rest = pre ++ l :: post ∧ (∀ m ∈ pre, pyStrip m = []) ∧
    pyStrip l ≠ [] ∧ 8 ≤ ((pyStrip l).filter Char.isAlpha).length ∧
    pctUpperGE60 (pyStrip l) [toL "report"] = true

theorem lookaheadOk_iff : ∀ (rest : List (List Char)),
    lookaheadOk rest = true ↔ NextNonblankHeadingish rest
  | [] => by
    constructor
    · intro h; simp [lookaheadOk, firstNonblank] at h
    · rintro ⟨pre, l, post, heq, -⟩
      exact absurd heq (by simp)
  | l0 :: rest => by
    by_cases hb : pyStrip l0 = []
    · rw [show lookaheadOk (l0 :: rest) = lookaheadOk rest from by
        simp [lookaheadOk, firstNonblank, hb]]
      rw [lookaheadOk_iff rest]
      constructor
      · rintro ⟨pre, l, post, heq, hpre, hnb, h8, hp⟩
        refine ⟨l0 :: pre, l, post, by rw [heq]; rfl, ?_, hnb, h8, hp⟩
        intro m hm
        rcases List.mem_cons.mp hm with rfl | hm2
        · exact hb
        · exact hpre m hm2
      · rintro ⟨pre, l, post, heq, hpre, hnb, h8, hp⟩
        cases pre with
        | nil =>
          simp only [List.nil_append, List.cons.injEq] at heq
          exact absurd (heq.1 ▸ hb) hnb
        | cons p pre2 =>
          simp only [List.cons_append, List.cons.injEq] at heq
          exact ⟨pre2, l, post, heq.2, fun m hm => hpre m (by simp [hm]), hnb, h8, hp⟩
    · rw [show lookaheadOk (l0 :: rest) =
          (decide (8 ≤ ((pyStrip l0).filter Char.isAlpha).length) &&
            pctUpperGE60 (pyStrip l0) [toL "report"]) from by
        simp [lookaheadOk, firstNonblank, hb]]
      constructor
      · intro h
        obtain ⟨h8, hp⟩ := Bool.and_eq_true_iff.mp h
        exact ⟨[], l0, rest, rfl, by simp, hb, of_decide_eq_true h8, hp⟩
      · rintro ⟨pre, l, post, heq, hpre, hnb, h8, hp⟩
        cases pre with
        | nil =>
          simp only [List.nil_append, List.cons.injEq] at heq
          rw [heq.1]
          exact Bool.and_eq_true_iff.mpr ⟨decide_eq_true h8, hp⟩
        | cons p pre2 =>
          simp only [List.cons_append, List.cons.injEq] at heq
          exact absurd (heq.1 ▸ hpre p (by simp)) hb

/-- Claim C6, counterexample: on a transcript where a blank line inside an
open title block is followed by the single-word line `"REPRESENTATIVES"`, the
source retains the blank line (its look-ahead does not require two words) and
emits one large block, while the claim's heading-like look-ahead closes the
block at the blank line. -/
theorem claim_C6_counterexample :
    find_titles
        (toL "THE CLIMATE EMERGENCY ACT\n\nREPRESENTATIVES\n\nlowercase text here\n") ≠
      findTitlesClaimVer
        (toL "THE CLIMATE EMERGENCY ACT\n\nREPRESENTATIVES\n\nlowercase text here\n") := by
  decide

/-- Claim C6, amended: when a blank line is met while a candidate block is
open, the blank line is retained inside the block and scanning continues if
and only if the next non-blank line (past further blanks) has at least 8
alphabetic characters and at least 60 percent of its non-skip alphabetic
characters uppercase — with no word-count requirement; otherwise the block
closes at the blank line and is emitted subject to the courtesy-title discard
rule. -/
theorem claim_C6_amended (offset blockStart : Nat)
    (block : List (List Char × Nat × Nat)) (line : List Char)
    (rest : List (List Char))
    (hblock : block.isEmpty = false) (hblank : pyStrip line = []) :
    (NextNonblankHeadingish rest →
      findTitlesAux lookaheadOk offset block blockStart (line :: rest) =
        findTitlesAux lookaheadOk (offset + line.length)
          (block ++ [(line, offset, offset + line.length)]) blockStart rest) ∧
    (¬ NextNonblankHeadingish rest →
      findTitlesAux lookaheadOk offset block blockStart (line :: rest) =
        closeBlock block blockStart ++
          findTitlesAux lookaheadOk (offset + line.length) [] blockStart rest) := by
  have hcond : (pyStrip line = [] ∧ ¬block.isEmpty = true) := ⟨hblank, by simp [hblock]⟩
  constructor
  · intro hn
    simp only [findTitlesAux]
    rw [if_pos hcond, if_pos ((lookaheadOk_iff rest).mpr hn)]
  · intro hn
    simp only [findTitlesAux]
    rw [if_pos hcond, if_neg (fun hc => hn ((lookaheadOk_iff rest).mp hc))]

/-- Witness for the amended claim C6: with an open block and a blank line whose
look-ahead sees `"HEADING LINE TWO"`, the blank line is retained. -/
theorem claim_C6_amended_witness :
    NextNonblankHeadingish [toL "HEADING LINE TWO\n"] ∧
    findTitlesAux lookaheadOk 2 [(toL "T\n", 0, 2)] 0
        (toL "\n" :: [toL "HEADING LINE TWO\n"]) =
      findTitlesAux lookaheadOk (2 + (toL "\n").length)
        ([(toL "T\n", 0, 2)] ++ [(toL "\n", 2, 2 + (toL "\n").length)]) 0
        [toL "HEADING LINE TWO\n"] := by
  have hn : NextNonblankHeadingish [toL "HEADING LINE TWO\n"] :=
    ⟨[], toL "HEADING LINE TWO\n", [], rfl, by simp, by decide, by decide, by decide⟩
  exact ⟨hn, (claim_C6_amended 2 0 [(toL "T\n", 0, 2)] (toL "\n")
    [toL "HEADING LINE TWO\n"] (by decide) (by decide)).1 hn⟩

/-! ## A small backtracking regex engine for `SPEAKER_REGEX`

The engine returns the list of possible remainders in Python's backtracking
preference order (alternatives left first, repetition greedy); the head of the
list is the remainder of the match `re.finditer` reports.  A starred
subexpression that consumes nothing ends the iteration, as in Python. -/

inductive RE where
  | eps : RE
  | cls : (Char → Bool) → RE
  | seq : RE → RE → RE
  | alt : RE → RE → RE
  | opt : RE → RE
  | star : RE → RE

/-- Greedy repetition: try one more (progress-making) iteration first, then
stop; `fuel` bounds the number of iterations by the input length. -/
def starIter (f : List Char → List (List Char)) : Nat → List Char → List (List Char)
  | 0, s => [s]
  | n + 1, s =>
    (((f s).filter fun r => r.length < s.length).flatMap fun r => starIter f n r) ++ [s]

/-- All remainders after matching `re` at the head of the input, in preference
order. -/
def runRE : RE → List Char → List (List Char)
  | .eps, s => [s]
  | .cls _, [] => []
  | .cls p, c :: r => if p c then [r] else []
  | .seq a b, s => (runRE a s).flatMap (runRE b)
  | .alt a b, s => runRE a s ++ runRE b s
  | .opt a, s => runRE a s ++ [s]
  | .star a, s => starIter (runRE a) s.length s

/-- A single literal character. -/
def chr (c : Char) : RE := .cls fun d => d == c

/-- A literal string. -/
def strRE : List Char → RE
  | [] => .eps
  | c :: rest => .seq (chr c) (strRE rest)

/-- A literal string from a Lean literal. -/
def strL (s : String) : RE := strRE s.toList

/-- `a+` (greedy). -/
def rePlus (a : RE) : RE := .seq a (.star a)

/-- `a{0,n}` (greedy). -/
def rep0upto : Nat → RE → RE
  | 0, _ => .eps
  | n + 1, a => .opt (.seq a (rep0upto n a))

/-- Build a left-preferring alternation from a non-empty list. -/
def altsRE : List RE → RE
  | [] => .cls fun _ => false
  | [a] => a
  | a :: b :: rest => .alt a (altsRE (b :: rest))

/-- Character classes of `SPEAKER_REGEX`: `\s`, `[A-Z]`, `[a-z]`,
`[A-Za-z']`, `[a-zA-Z]`, `[^)]`. -/
def clsWs : RE := .cls isPyWs

def clsUpper : RE := .cls Char.isUpper

def clsLower : RE := .cls Char.isLower

def clsNameChar : RE := .cls fun c => Char.isAlpha c || c == '\''

def clsAlpha : RE := .cls Char.isAlpha

def clsNotRParen : RE := .cls fun c => !(c == ')')

/-- `[A-Z][a-z]{0,3}[A-Za-z']+`: one name-shaped token. -/
def nameToken : RE := .seq clsUpper (.seq (rep0upto 3 clsLower) (rePlus clsNameChar))

/-- `(?:-[A-Za-z']+)*`. -/
def hyphenTail : RE := .star (.seq (chr '-') (rePlus clsNameChar))

/-- `(?:\s\([^)]*\))?`: an optional parenthetical aside. -/
def parenAside : RE :=
  .opt (.seq clsWs (.seq (chr '(') (.seq (.star clsNotRParen) (chr ')'))))

/-- `[A-Z][a-zA-Z]+`, the state-name token of the `of`-clause. -/
def ofNameToken : RE := .seq clsUpper (rePlus clsAlpha)

/-- `M(?:r|rs|s)\.|Miss|Chairman|Chairwoman|HON\.|Dr\.` in source order. -/
def honorific : RE :=
  altsRE [
    .seq (chr 'M') (.seq (altsRE [strL "r", strL "rs", strL "s"]) (chr '.')),
    strL "Miss", strL "Chairman", strL "Chairwoman", strL "HON.", strL "Dr."]

/-- The first alternative of `SPEAKER_REGEX` (honorific plus name), without
the terminating period. -/
def speakerBranchA : RE :=
  .seq honorific (.seq clsWs (.seq (.opt (.seq (strL "Counsel") clsWs))
    (.seq (.star (.seq clsUpper (.seq (chr '.') clsWs)))
    (.seq nameToken
    (.seq (.star (.seq clsWs (.seq clsUpper (chr '.'))))
    (.seq hyphenTail
    (.seq (.star (.seq clsWs (.seq nameToken hyphenTail)))
    (.seq (.opt (.seq clsWs (.seq (strL "of") (.seq clsWs
      (.seq ofNameToken (.star (.seq clsWs ofNameToken)))))))
    (.seq (.opt (.seq clsWs (strL "[continuing]")))
      parenAside)))))))))

/-- `\spro\stempore` as an optional suffix. -/
def proTempore : RE := .opt (.seq clsWs (.seq (strL "pro") (.seq clsWs (strL "tempore"))))

/-- The institutional-role alternation of `SPEAKER_REGEX`, in source order. -/
def speakerRoles : RE :=
  altsRE [
    strL "CLERK",
    .seq (strL "Acting") (.seq clsWs (strL "CHAIR")),
    .seq (strL "ACTING") (.seq clsWs (strL "CHAIR")),
    strL "CHAIR",
    .seq (strL "CHAIRMAN") proTempore,
    .seq (strL "PRESIDING") (.seq clsWs (strL "OFFICER")),
    .seq (strL "SPEAKER") proTempore,
    .seq (strL "VICE") (.seq clsWs (strL "PRESIDENT")),
    .seq (strL "PRESIDENT") (.seq clsWs (.seq (strL "pro") (.seq clsWs (strL "tempore")))),
    .seq (strL "ACTING") (.seq clsWs (.seq (strL "PRESIDENT")
      (.seq clsWs (.seq (strL "pro") (.seq clsWs (strL "tempore")))))),
    .seq (strL "CHIEF") (.seq clsWs (strL "JUSTICE"))]

/-- The second alternative of `SPEAKER_REGEX` (`The` plus role), without the
terminating period. -/
def speakerBranchB : RE :=
  .seq (strL "The") (.seq clsWs (.seq speakerRoles parenAside))

/-- `SPEAKER_REGEX` without the leading `^` anchor: `\s{1,2}`, then one of the
two alternatives, then the literal period.  The terminating `\.` common to
both alternatives is factored out of the alternation, which preserves the
backtracking order (`seq` distributes over `alt` keeping list order). -/
def speakerRE : RE :=
  .seq (.seq clsWs (.opt clsWs)) (.seq (.alt speakerBranchA speakerBranchB) (chr '.'))

/-- Python slicing `l[s:e]`. -/
def slice (l : List Char) (s e : Nat) : List Char := (l.take e).drop s

/-- The length of the leftmost-preference match of `re` anchored here, if any. -/
def matchLen (re : RE) (s : List Char) : Option Nat :=
  (runRE re s).head?.map fun r => s.length - r.length

/-! ## The event scanners and turn assembler of `scrape` -/

/-- An event of the scanner timeline: `kind` is true for a speaker `Start`
event (which carries the label) and false for an `End` event. -/
structure Ev where
  kind : Bool
  start : Nat
  stop : Nat
  label : List Char
deriving DecidableEq

/-- `^` under `re.MULTILINE`: position 0 or a position just after `\n`. -/
def atLineStart (text : List Char) (pos : Nat) : Bool :=
  pos == 0 || (text.getD (pos - 1) ' ') == '\n'

/-- `re.finditer(SPEAKER_REGEX, text)`: try the (line-start-anchored) pattern
at each position from `pos` on; a match at `p` of length `k` yields a `Start`
event `(p, p + k)` carrying the label `text[p:p+k].strip()[:-1]`, and the scan
resumes at the match end. -/
def speakerScan (text : List Char) : Nat → Nat → List Ev
  | 0, _ => []
  | fuel + 1, pos =>
    if pos < text.length then
      if atLineStart text pos then
        match matchLen speakerRE (text.drop pos) with
        | some k =>
          ⟨true, pos, pos + k, (pyStrip (slice text pos (pos + k))).dropLast⟩ ::
            speakerScan text fuel (pos + max 1 k)
        | none => speakerScan text fuel (pos + 1)
      else speakerScan text fuel (pos + 1)
    else []

/-- All speaker `Start` events of the transcript. -/
def speakerEvents (text : List Char) : List Ev :=
  speakerScan text (text.length + 1) 0

/-- Split on `\n` only (the line structure regex `^...$` anchors see),
keeping the `\n` with its line. -/
def splitNL (acc : List Char) : List Char → List (List Char)
  | [] => if acc.isEmpty then [] else [acc.reverse]
  | c :: rest =>
    if c = '\n' then (acc.reverse ++ ['\n']) :: splitNL [] rest
    else splitNL (c :: acc) rest

/-- Pair each line with its start offset. -/
def withOffsets (pos : Nat) : List (List Char) → List (Nat × List Char)
  | [] => []
  | l :: ls => (pos, l) :: withOffsets (pos + l.length) ls

/-- The line content a `^...$` match covers: the line without its trailing
`\n`, if any. -/
def nlContent (l : List Char) : List Char :=
  if l.getLast? = some '\n' then l.dropLast else l

/-- `End` events from a full-line regex (`^...$` with `re.MULTILINE`): one
event per `\n`-line whose content satisfies `p`, spanning the content. -/
def lineEndEvents (p : List Char → Bool) (text : List Char) : List Ev :=
  (withOffsets 0 (splitNL [] text)).filterMap fun ol =>
    let c := nlContent ol.2
    if p c then some ⟨false, ol.1, ol.1 + c.length, []⟩ else none

/-- Does the list contain a run of at least `need` consecutive copies of `ch`?
(`cnt` is the length of the current run.) -/
def hasRunAux (ch : Char) (need : Nat) : Nat → List Char → Bool
  | cnt, [] => decide (need ≤ cnt)
  | cnt, c :: rest =>
    if decide (need ≤ cnt) then true
    else if c = ch then hasRunAux ch need (cnt + 1) rest
    else hasRunAux ch need 0 rest

/-- `UNDERLINE_REGEX`: the line consists only of spaces, underscores and
hyphens, and contains a run of at least three underscores or of at least three
hyphens. -/
def isUnderlineLine (c : List Char) : Bool :=
  (c.all fun d => d == ' ' || d == '_' || d == '-') &&
  (hasRunAux '_' 3 0 c || hasRunAux '-' 3 0 c)

/-- `DOC_HEADER_REGEX`: `^\[Congressional Record Volume.*\]$`. -/
def isDocHeaderLine (c : List Char) : Bool :=
  (toL "[Congressional Record Volume").isPrefixOf c &&
  decide (29 ≤ c.length) && c.getLast? == some ']'

/-- The character-column width of the leading indentation, counting a tab as
`tw` columns. -/
def indentWidth (tw : Nat) : List Char → Nat
  | [] => 0
  | c :: rest =>
    if c = ' ' then 1 + indentWidth tw rest
    else if c = '\t' then tw + indentWidth tw rest
    else 0

/-- Regex `\w`: a word character. -/
def isWordC (c : Char) : Bool := Char.isAlphanum c || c == '_'

/-- The character class `[\w'-]` of the word pattern. -/
def isWC (c : Char) : Bool := isWordC c || c == '\'' || c == '-'

/-- The largest `k` with `1 <= k <= run.length` at which the word-boundary
`\b` holds after consuming `k` characters of the run (the character after the
run is outside the class, hence a non-word character). -/
def largestBoundary (run : List Char) : Nat → Option Nat
  | 0 => none
  | k + 1 =>
    let prevW := isWordC (run.getD k ' ')
    let nextW := if k + 1 < run.length then isWordC (run.getD (k + 1) ' ') else false
    if xor prevW nextW then some (k + 1) else largestBoundary run k

/-- `re.findall(r"\b\w[\w'-]*\b", s)`: scan with a previous-character word
flag; at each boundary-starting word character, take the longest class run
that ends at a boundary (backtracking), else advance one character. -/
def findWordsAux (text0 : List Char) : Bool → Nat → List Char → List (List Char)
  | _, 0, _ => []
  | _, _ + 1, [] => []
  | prevW, fuel + 1, c :: rest =>
    if !prevW && isWordC c then
      let run := (c :: rest).takeWhile isWC
      match largestBoundary run run.length with
      | some k =>
        (run.take k) ::
          findWordsAux text0 (isWordC (run.getD (k - 1) ' ')) fuel ((c :: rest).drop k)
      | none => findWordsAux text0 (isWordC c) fuel rest
    else findWordsAux text0 (isWordC c) fuel rest

/-- `re.findall(r"\b\w[\w'-]*\b", s)`. -/
def findWords (s : List Char) : List (List Char) :=
  findWordsAux s false (s.length + 1) s

/-- The per-line test of `_find_deeply_indented_titles`: previous line blank,
indentation above the tab width, and at least half of the words begin with an
uppercase letter. -/
def deepTitleMarker (prev : Option (List Char)) (line : List Char) : Bool :=
  match prev with
  | none => false
  | some p =>
    if !(pyStrip p).isEmpty then false
    else if indentWidth 2 line ≤ 2 then false
    else
      let stripped := stripCharsBoth (fun c => c == '\r' || c == '\n') line
      let words := findWords stripped
      if words.isEmpty then false
      else decide (words.length ≤ 2 * (words.countP fun w => (w.headD ' ').isUpper))

/-- The loop of `_find_deeply_indented_titles` over offset-annotated lines. -/
def deepTitleEventsAux : Option (List Char) → List (Nat × List Char) → List Ev
  | _, [] => []
  | prev, (o, l) :: rest =>
    (if deepTitleMarker prev l then [⟨false, o, o, []⟩] else []) ++
      deepTitleEventsAux (some l) rest

/-- `_find_deeply_indented_titles(text)`: zero-width `End` markers at the
start offsets of deeply indented heading lines. -/
def deepTitleEvents (text : List Char) : List Ev :=
  deepTitleEventsAux none (withOffsets 0 (pySplitlinesKeep text))

/-- `DATE_END_REGEX.search(t)` on a stripped line: the line ends with at least
one digit, then `", "`, then exactly four digits, then an optional period. -/
def dateEndMatch (t : List Char) : Bool :=
  let t1 := if t.getLast? = some '.' then t.dropLast else t
  decide (7 ≤ t1.length) &&
  ((t1.drop (t1.length - 4)).all Char.isDigit) &&
  (t1.getD (t1.length - 5) ' ' == ' ') &&
  (t1.getD (t1.length - 6) ' ' == ',') &&
  Char.isDigit (t1.getD (t1.length - 7) ' ')

/-- `_find_right_justified_dates(text)`: zero-width `End` markers at the start
offsets of lines indented at least 15 columns whose stripped text ends with a
date. -/
def dateEvents (text : List Char) : List Ev :=
  (withOffsets 0 (pySplitlinesKeep text)).filterMap fun ol =>
    if decide (15 ≤ indentWidth 15 ol.2) && dateEndMatch (pyStrip ol.2) then
      some ⟨false, ol.1, ol.1, []⟩
    else none
/-- Replace each non-breaking space (U+00A0) by a plain
space (`text.replace(nbsp, ' ')`). -/
def replaceNbsp (text : List Char) : List Char :=
  text.map fun c => if c = '\u00A0' then ' ' else c

/-- The concatenated event lists of `scrape`, in source scan order: speaker
starts, underline ends, document-header ends, deep-title ends, date ends, and
NOTE-marker ends. -/
def scrapeEvents (t : List Char) : List Ev :=
  speakerEvents t ++ lineEndEvents isUnderlineLine t ++
    lineEndEvents isDocHeaderLine t ++ deepTitleEvents t ++ dateEvents t ++
    lineEndEvents isEqualsLine t

/-- One emitted turn: the speaker label, the half-open text span, and the
cleaned text computed from that span. -/
structure Turn where
  speaker : List Char
  span : Nat × Nat
  text : List Char
deriving DecidableEq

/-- The text of an emitted turn: `_clean_extraneous(text[s:e].strip()).strip()`. -/
def mkTurnText (t : List Char) (s e : Nat) : List Char :=
  pyStrip (clean_extraneous (pyStrip (slice t s e)))

/-- The state machine of `scrape`: `cur` holds the open turn's label and text
start.  A `Start` event closes any open turn at its start offset and opens a
new one at its end offset; an `End` event closes any open turn at its start
offset; at the end of the event list a still-open turn is closed at the
transcript's end. -/
def assemble (t : List Char) : List Ev → Option (List Char × Nat) → List Turn
  | [], none => []
  | [], some (spk, st) => [⟨spk, (st, t.length), mkTurnText t st t.length⟩]
  | e :: rest, cur =>
    if e.kind then
      match cur with
      | some (spk, st) =>
        ⟨spk, (st, e.start), mkTurnText t st e.start⟩ ::
          assemble t rest (some (e.label, e.stop))
      | none => assemble t rest (some (e.label, e.stop))
    else
      match cur with
      | some (spk, st) =>
        ⟨spk, (st, e.start), mkTurnText t st e.start⟩ :: assemble t rest none
      | none => assemble t rest none

/-- `scrape(text)` from `speaker_scraper.py`: strip NOTE blocks, normalise
non-breaking spaces, scan all six event families, sort by start offset
(stably, as Python's sort), and run the state machine. -/
def scrape (text : List Char) : List Turn :=
  let t := replaceNbsp (strip_note_blocks text)
  assemble t
    (List.insertionSort (fun a b : Ev => a.start ≤ b.start) (scrapeEvents t)) none

/-! ## Facts about the regex engine: every remainder is a suffix, and a match
of a pattern ending in a character class ends with a character of that
class -/

/-- Every remainder produced by `runRE` is a suffix of the input. -/
theorem runRE_suffix : ∀ (re : RE) (s : List Char), ∀ r ∈ runRE re s, List.IsSuffix r s
  | .eps, s => by
    intro r hr
    rw [runRE] at hr
    rcases List.mem_singleton.mp hr with rfl
    exact List.suffix_refl _
  | .cls p, s => by
    intro r hr
    cases s with
    | nil => rw [runRE] at hr; exact absurd hr (List.not_mem_nil r)
    | cons c rest =>
      rw [runRE] at hr
      by_cases hp : p c = true
      · rw [if_pos hp] at hr
        rcases List.mem_singleton.mp hr with rfl
        exact List.suffix_cons c _
      · rw [if_neg hp] at hr
        exact absurd hr (List.not_mem_nil r)
  | .seq a b, s => by
    intro r hr
    rw [runRE] at hr
    obtain ⟨mid, hmid, hr2⟩ := List.mem_flatMap.mp hr
    exact (runRE_suffix b mid r hr2).trans (runRE_suffix a s mid hmid)
  | .alt a b, s => by
    intro r hr
    rw [runRE] at hr
    rcases List.mem_append.mp hr with h | h
    · exact runRE_suffix a s r h
    · exact runRE_suffix b s r h
  | .opt a, s => by
    intro r hr
    rw [runRE] at hr
    rcases List.mem_append.mp hr with h | h
    · exact runRE_suffix a s r h
    · rcases List.mem_singleton.mp h with rfl
      exact List.suffix_refl _
  | .star a, s => by
    intro r hr
    rw [runRE] at hr
    have key : ∀ (n : Nat) (u : List Char), ∀ r2 ∈ starIter (runRE a) n u,
        List.IsSuffix r2 u := by
      intro n
      induction n with
      | zero =>
        intro u r2 h2
        rw [starIter] at h2
        rcases List.mem_singleton.mp h2 with rfl
        exact List.suffix_refl _
      | succ m ih =>
        intro u r2 h2
        rw [starIter] at h2
        rcases List.mem_append.mp h2 with h3 | h3
        · obtain ⟨mid, hmid, h4⟩ := List.mem_flatMap.mp h3
          exact (ih mid r2 h4).trans (runRE_suffix a u mid (List.mem_of_mem_filter hmid))
        · rcases List.mem_singleton.mp h3 with rfl
          exact List.suffix_refl _
    exact key s.length s r hr

/-- A match of `body` followed by a single character class ends with a
character of that class: the consumed text is `... ++ [c]` with `p c`. -/
theorem runRE_seq_cls_last (body : RE) (p : Char → Bool) (s r : List Char)
    (h : r ∈ runRE (.seq body (.cls p)) s) :
    ∃ c, p c = true ∧ List.IsSuffix (c :: r) s := by
  rw [runRE] at h
  obtain ⟨mid, hmid, hr⟩ := List.mem_flatMap.mp h
  cases mid with
  | nil => rw [runRE] at hr; exact absurd hr (List.not_mem_nil r)
  | cons c rest =>
    rw [runRE] at hr
    by_cases hp : p c = true
    · rw [if_pos hp] at hr
      rcases List.mem_singleton.mp hr with rfl
      exact ⟨c, hp, runRE_suffix body s _ hmid⟩
    · rw [if_neg hp] at hr
      exact absurd hr (List.not_mem_nil r)

/-- Every match of `SPEAKER_REGEX` consumes a final literal period: the
consumed prefix is `... ++ ['.']`. -/
theorem speakerRE_match_dot (s r : List Char) (h : r ∈ runRE speakerRE s) :
    List.IsSuffix ('.' :: r) s := by
  simp only [speakerRE] at h
  rw [runRE] at h
  obtain ⟨mid, hmid, hr⟩ := List.mem_flatMap.mp h
  simp only [chr] at hr
  obtain ⟨c, hc, hsuf⟩ :=
    runRE_seq_cls_last (.alt speakerBranchA speakerBranchB) (fun d => d == '.') mid r hr
  have hceq : c = '.' := by simpa using hc
  subst hceq
  exact hsuf.trans (runRE_suffix _ s mid hmid)

/-- Taking everything before a suffix `r` of `u`, where `c` immediately
precedes that suffix, yields a list ending in `c`. -/
theorem take_before_suffix_getLast (u r : List Char) (c : Char)
    (h : List.IsSuffix (c :: r) u) :
    (u.take (u.length - r.length)).getLast? = some c := by
  obtain ⟨w, hw⟩ := h
  subst hw
  have h1 : (w ++ c :: r).length - r.length = w.length + 1 := by
    simp only [List.length_append, List.length_cons]
    omega
  rw [h1, show w ++ c :: r = (w ++ [c]) ++ r from by simp,
    List.take_left' (show (w ++ [c]).length = w.length + 1 from by simp)]
  exact List.getLast?_concat w

/-- A successful anchored match of `SPEAKER_REGEX` of length `k` at `pos`
means the matched slice `text[pos:pos+k]` ends with a period. -/
theorem matchLen_slice_dot (text : List Char) (pos k : Nat)
    (h : matchLen speakerRE (text.drop pos) = some k) :
    (slice text pos (pos + k)).getLast? = some '.' := by
  simp only [matchLen] at h
  rw [Option.map_eq_some'] at h
  obtain ⟨r, hr, hk⟩ := h
  have hmem : r ∈ runRE speakerRE (text.drop pos) :=
    List.mem_of_mem_head? (Option.mem_def.mpr hr)
  have hsuf : List.IsSuffix ('.' :: r) (text.drop pos) :=
    speakerRE_match_dot (text.drop pos) r hmem
  have hslice : slice text pos (pos + k) = (text.drop pos).take k := by
    simp only [slice]
    rw [List.drop_take, Nat.add_sub_cancel_left]
  rw [hslice, ← hk]
  exact take_before_suffix_getLast (text.drop pos) r '.' hsuf

/-! ## Facts about the event scanners -/

/-- Every event of the speaker scan is a `Start` event at or after the scan
position, has a well-formed span, carries the stripped matched slice minus its
final character as label, and its matched slice ends with a period. -/
theorem speakerScan_mem (text : List Char) : ∀ (fuel pos : Nat),
    ∀ ev ∈ speakerScan text fuel pos,
      ev.kind = true ∧ pos ≤ ev.start ∧ ev.start ≤ ev.stop ∧
        ev.label = (pyStrip (slice text ev.start ev.stop)).dropLast ∧
        (slice text ev.start ev.stop).getLast? = some '.' := by
  intro fuel
  induction fuel with
  | zero =>
    intro pos ev hev
    rw [speakerScan] at hev
    exact absurd hev (List.not_mem_nil ev)
  | succ n ih =>
    intro pos ev hev
    rw [speakerScan] at hev
    by_cases hlt : pos < text.length
    · rw [if_pos hlt] at hev
      by_cases hls : atLineStart text pos = true
      · rw [if_pos hls] at hev
        cases hml : matchLen speakerRE (text.drop pos) with
        | some k =>
          rw [hml] at hev
          rcases List.mem_cons.mp hev with rfl | htail
          · exact ⟨rfl, Nat.le_refl pos, Nat.le_add_right pos k, rfl,
              matchLen_slice_dot text pos k hml⟩
          · have h := ih (pos + max 1 k) ev htail
            exact ⟨h.1, le_trans (Nat.le_add_right pos (max 1 k)) h.2.1, h.2.2⟩
        | none =>
          rw [hml] at hev
          have h := ih (pos + 1) ev hev
          exact ⟨h.1, le_trans (Nat.le_add_right pos 1) h.2.1, h.2.2⟩
      · rw [if_neg hls] at hev
        have h := ih (pos + 1) ev hev
        exact ⟨h.1, le_trans (Nat.le_add_right pos 1) h.2.1, h.2.2⟩
    · rw [if_neg hlt] at hev
      exact absurd hev (List.not_mem_nil ev)

/-- Successive speaker events are strictly ordered and non-overlapping: the
scan resumes at (or after) each match end. -/
theorem speakerScan_chain (text : List Char) : ∀ (fuel pos : Nat),
    List.Pairwise (fun a b : Ev => a.stop ≤ b.start ∧ a.start < b.start)
      (speakerScan text fuel pos) := by
  intro fuel
  induction fuel with
  | zero =>
    intro pos
    rw [speakerScan]
    exact List.Pairwise.nil
  | succ n ih =>
    intro pos
    rw [speakerScan]
    by_cases hlt : pos < text.length
    · rw [if_pos hlt]
      by_cases hls : atLineStart text pos = true
      · rw [if_pos hls]
        cases hml : matchLen speakerRE (text.drop pos) with
        | some k =>
          refine List.pairwise_cons.mpr ⟨?_, ih (pos + max 1 k)⟩
          intro b hb
          have h := speakerScan_mem text n (pos + max 1 k) b hb
          constructor
          · show pos + k ≤ b.start
            exact le_trans (Nat.add_le_add_left (Nat.le_max_right 1 k) pos) h.2.1
          · show pos < b.start
            exact lt_of_lt_of_le
              (Nat.lt_add_of_pos_right (Nat.lt_of_lt_of_le Nat.one_pos (Nat.le_max_left 1 k)))
              h.2.1
        | none => exact ih (pos + 1)
      · rw [if_neg hls]
        exact ih (pos + 1)
    · rw [if_neg hlt]
      exact List.Pairwise.nil

/-- Every full-line regex event is an `End` event with a well-formed span. -/
theorem lineEndEvents_mem (p : List Char → Bool) (text : List Char) :
    ∀ ev ∈ lineEndEvents p text, ev.kind = false ∧ ev.start ≤ ev.stop := by
  intro ev hev
  simp only [lineEndEvents] at hev
  obtain ⟨ol, _, heq⟩ := List.mem_filterMap.mp hev
  have heq2 : (if p (nlContent ol.2) then
      some (⟨false, ol.1, ol.1 + (nlContent ol.2).length, []⟩ : Ev) else none) = some ev := heq
  by_cases hp : p (nlContent ol.2) = true
  · rw [if_pos hp] at heq2
    have h3 := Option.some.inj heq2
    subst h3
    exact ⟨rfl, Nat.le_add_right ol.1 (nlContent ol.2).length⟩
  · rw [if_neg hp] at heq2
    exact Option.noConfusion heq2

/-- Every `\n`-line of the text whose content satisfies `p` contributes its
`End` event to `lineEndEvents`. -/
theorem lineEndEvents_of_mem (p : List Char → Bool) (text : List Char) (o : Nat) (l : List Char)
    (hol : (o, l) ∈ withOffsets 0 (splitNL [] text))
    (hp : p (nlContent l) = true) :
    (⟨false, o, o + (nlContent l).length, []⟩ : Ev) ∈ lineEndEvents p text := by
  simp only [lineEndEvents]
  refine List.mem_filterMap.mpr ⟨(o, l), hol, ?_⟩
  show (if p (nlContent l) then
      some (⟨false, o, o + (nlContent l).length, []⟩ : Ev) else none) =
    some ⟨false, o, o + (nlContent l).length, []⟩
  rw [if_pos hp]

/-- Every deep-title event is a zero-width `End` event. -/
theorem deepTitleEventsAux_mem : ∀ (prev : Option (List Char)) (ols : List (Nat × List Char)),
    ∀ ev ∈ deepTitleEventsAux prev ols, ev.kind = false ∧ ev.start ≤ ev.stop
  | _, [] => by
    intro ev hev
    rw [deepTitleEventsAux] at hev
    exact absurd hev (List.not_mem_nil ev)
  | prev, (o, l) :: rest => by
    intro ev hev
    rw [deepTitleEventsAux] at hev
    rcases List.mem_append.mp hev with h | h
    · by_cases hd : deepTitleMarker prev l = true
      · rw [if_pos hd] at h
        rcases List.mem_singleton.mp h with rfl
        exact ⟨rfl, Nat.le_refl o⟩
      · rw [if_neg hd] at h
        exact absurd h (List.not_mem_nil ev)
    · exact deepTitleEventsAux_mem (some l) rest ev h

/-- Every right-justified-date event is a zero-width `End` event. -/
theorem dateEvents_mem (text : List Char) :
    ∀ ev ∈ dateEvents text, ev.kind = false ∧ ev.start ≤ ev.stop := by
  intro ev hev
  simp only [dateEvents] at hev
  obtain ⟨ol, _, heq⟩ := List.mem_filterMap.mp hev
  have heq2 : (if decide (15 ≤ indentWidth 15 ol.2) && dateEndMatch (pyStrip ol.2) then
      some (⟨false, ol.1, ol.1, []⟩ : Ev) else none) = some ev := heq
  by_cases hc : (decide (15 ≤ indentWidth 15 ol.2) && dateEndMatch (pyStrip ol.2)) = true
  · rw [if_pos hc] at heq2
    have h3 := Option.some.inj heq2
    subst h3
    exact ⟨rfl, Nat.le_refl ol.1⟩
  · rw [if_neg hc] at heq2
    exact Option.noConfusion heq2

/-- Every scanned event has a well-formed span. -/
theorem scrapeEvents_wf (t : List Char) : ∀ ev ∈ scrapeEvents t, ev.start ≤ ev.stop := by
  intro ev hev
  simp only [scrapeEvents, List.mem_append] at hev
  rcases hev with ((((h | h) | h) | h) | h) | h
  · exact (speakerScan_mem t (t.length + 1) 0 ev h).2.2.1
  · exact (lineEndEvents_mem isUnderlineLine t ev h).2
  · exact (lineEndEvents_mem isDocHeaderLine t ev h).2
  · exact (deepTitleEventsAux_mem none (withOffsets 0 (pySplitlinesKeep t)) ev h).2
  · exact (dateEvents_mem t ev h).2
  · exact (lineEndEvents_mem isEqualsLine t ev h).2

/-- Every `Start` event among the scanned events comes from the speaker scan
and therefore carries the stripped matched slice minus its final character,
the matched slice ending with a period. -/
theorem scrapeEvents_kind_true (t : List Char) : ∀ ev ∈ scrapeEvents t, ev.kind = true →
    ev ∈ speakerEvents t ∧
      ev.label = (pyStrip (slice t ev.start ev.stop)).dropLast ∧
      (slice t ev.start ev.stop).getLast? = some '.' := by
  intro ev hev hk
  simp only [scrapeEvents, List.mem_append] at hev
  rcases hev with ((((h | h) | h) | h) | h) | h
  · exact ⟨h, (speakerScan_mem t (t.length + 1) 0 ev h).2.2.2⟩
  · rw [(lineEndEvents_mem isUnderlineLine t ev h).1] at hk
    exact Bool.noConfusion hk
  · rw [(lineEndEvents_mem isDocHeaderLine t ev h).1] at hk
    exact Bool.noConfusion hk
  · rw [(deepTitleEventsAux_mem none (withOffsets 0 (pySplitlinesKeep t)) ev h).1] at hk
    exact Bool.noConfusion hk
  · rw [(dateEvents_mem t ev h).1] at hk
    exact Bool.noConfusion hk
  · rw [(lineEndEvents_mem isEqualsLine t ev h).1] at hk
    exact Bool.noConfusion hk

/-- Separation of two events: if both are `Start` events, one ends at or
before the other starts.  Vacuous when either is an `End` event; symmetric, so
it survives permutation by the sort. -/
def evSep (a b : Ev) : Prop :=
  a.kind = true → b.kind = true →
    (a.start < b.start ∧ a.stop ≤ b.start) ∨ (b.start < a.start ∧ b.stop ≤ a.start)

theorem evSep_symm {a b : Ev} (h : evSep a b) : evSep b a :=
  fun hb ha => (h ha hb).symm

theorem pairwise_evSep_of_false : ∀ (l : List Ev), (∀ e ∈ l, e.kind = false) →
    List.Pairwise evSep l
  | [], _ => List.Pairwise.nil
  | a :: rest, h => by
    refine List.pairwise_cons.mpr
      ⟨?_, pairwise_evSep_of_false rest fun e he => h e (List.mem_cons_of_mem a he)⟩
    intro b hb _ hkb
    rw [h b (List.mem_cons_of_mem a hb)] at hkb
    exact Bool.noConfusion hkb

theorem pairwise_evSep_append (l1 l2 : List Ev) (h1 : List.Pairwise evSep l1)
    (h2 : ∀ e ∈ l2, e.kind = false) : List.Pairwise evSep (l1 ++ l2) := by
  refine List.pairwise_append.mpr ⟨h1, pairwise_evSep_of_false l2 h2, ?_⟩
  intro a _ b hb _ hkb
  rw [h2 b hb] at hkb
  exact Bool.noConfusion hkb

/-- The concatenated event lists are pairwise separated: only speaker events
are `Start` events, and those are chained by the scan. -/
theorem scrapeEvents_evSep (t : List Char) : List.Pairwise evSep (scrapeEvents t) := by
  have hspk : List.Pairwise evSep (speakerEvents t) := by
    refine List.Pairwise.imp ?_ (speakerScan_chain t (t.length + 1) 0)
    intro a b h _ _
    exact Or.inl ⟨h.2, h.1⟩
  show List.Pairwise evSep (speakerEvents t ++ lineEndEvents isUnderlineLine t ++
    lineEndEvents isDocHeaderLine t ++ deepTitleEvents t ++ dateEvents t ++
    lineEndEvents isEqualsLine t)
  exact pairwise_evSep_append _ _
    (pairwise_evSep_append _ _
      (pairwise_evSep_append _ _
        (pairwise_evSep_append _ _
          (pairwise_evSep_append _ _ hspk
            fun e he => (lineEndEvents_mem isUnderlineLine t e he).1)
          fun e he => (lineEndEvents_mem isDocHeaderLine t e he).1)
        fun e he => (deepTitleEventsAux_mem none (withOffsets 0 (pySplitlinesKeep t)) e he).1)
      fun e he => (dateEvents_mem t e he).1)
    fun e he => (lineEndEvents_mem isEqualsLine t e he).1

instance : IsTotal Ev fun a b => a.start ≤ b.start :=
  ⟨fun a b => Nat.le_total a.start b.start⟩

instance : IsTrans Ev fun a b => a.start ≤ b.start :=
  ⟨fun _ _ _ h1 h2 => Nat.le_trans h1 h2⟩

/-- After the stable sort by start offset, the event list is pairwise ordered
by start, and two `Start` events are also ordered by stop. -/
theorem sorted_pairwise (t : List Char) :
    List.Pairwise
      (fun a b : Ev => a.start ≤ b.start ∧ (a.kind = true → b.kind = true → a.stop ≤ b.stop))
      (List.insertionSort (fun a b : Ev => a.start ≤ b.start) (scrapeEvents t)) := by
  have hperm := List.perm_insertionSort (fun a b : Ev => a.start ≤ b.start) (scrapeEvents t)
  have hsorted : List.Pairwise (fun a b : Ev => a.start ≤ b.start)
      (List.insertionSort (fun a b : Ev => a.start ≤ b.start) (scrapeEvents t)) :=
    List.sorted_insertionSort _ _
  have hsep : List.Pairwise evSep
      (List.insertionSort (fun a b : Ev => a.start ≤ b.start) (scrapeEvents t)) :=
    (hperm.pairwise_iff fun h => evSep_symm h).mpr (scrapeEvents_evSep t)
  refine List.Pairwise.imp_of_mem ?_ (hsorted.and hsep)
  intro a b ha hb hab
  obtain ⟨hle, hsep2⟩ := hab
  refine ⟨hle, fun hka hkb => ?_⟩
  rcases hsep2 hka hkb with ⟨_, h2⟩ | ⟨hlt, _⟩
  · exact le_trans h2 (scrapeEvents_wf t b (hperm.subset hb))
  · exact absurd hle (by omega)

/-! ## Facts about the turn assembler -/

/-- `scrape` unfolded: note stripping, space normalisation, scan, stable sort,
state machine. -/
theorem scrape_unfold (text : List Char) :
    scrape text =
      assemble (replaceNbsp (strip_note_blocks text))
        (List.insertionSort (fun a b : Ev => a.start ≤ b.start)
          (scrapeEvents (replaceNbsp (strip_note_blocks text)))) none := rfl

/-- Every turn emitted by `assemble` starts at or after `m`, provided the open
turn (if any) and the stop of every pending `Start` event do. -/
theorem assemble_start_lb (t : List Char) (evs : List Ev) :
    ∀ (cur : Option (List Char × Nat)) (m : Nat),
      (∀ spk st, cur = some (spk, st) → m ≤ st) →
      (∀ e ∈ evs, e.kind = true → m ≤ e.stop) →
      ∀ turn ∈ assemble t evs cur, m ≤ turn.span.1 := by
  induction evs with
  | nil =>
    intro cur m hcur _ turn hturn
    cases cur with
    | none => exact absurd hturn (List.not_mem_nil turn)
    | some p =>
      obtain ⟨spk, st⟩ := p
      rcases List.mem_singleton.mp hturn with rfl
      exact hcur spk st rfl
  | cons e rest ih =>
    intro cur m hcur hevs turn hturn
    cases cur with
    | none =>
      have hturn2 : turn ∈ (if e.kind = true then
          assemble t rest (some (e.label, e.stop)) else assemble t rest none) := hturn
      by_cases hk : e.kind = true
      · rw [if_pos hk] at hturn2
        refine ih (some (e.label, e.stop)) m ?_
          (fun e' he' => hevs e' (List.mem_cons_of_mem e he')) turn hturn2
        intro spk st h
        obtain ⟨h1, h2⟩ := Prod.mk.inj (Option.some.inj h)
        exact h2 ▸ hevs e (List.mem_cons_self e rest) hk
      · rw [if_neg hk] at hturn2
        exact ih none m (fun _ _ h => Option.noConfusion h)
          (fun e' he' => hevs e' (List.mem_cons_of_mem e he')) turn hturn2
    | some p =>
      obtain ⟨spk, st⟩ := p
      have hturn2 : turn ∈ (if e.kind = true then
          (⟨spk, (st, e.start), mkTurnText t st e.start⟩ : Turn) ::
            assemble t rest (some (e.label, e.stop))
          else (⟨spk, (st, e.start), mkTurnText t st e.start⟩ : Turn) ::
            assemble t rest none) := hturn
      by_cases hk : e.kind = true
      · rw [if_pos hk] at hturn2
        rcases List.mem_cons.mp hturn2 with rfl | htail
        · exact hcur spk st rfl
        · refine ih (some (e.label, e.stop)) m ?_
            (fun e' he' => hevs e' (List.mem_cons_of_mem e he')) turn htail
          intro spk' st' h
          obtain ⟨h1, h2⟩ := Prod.mk.inj (Option.some.inj h)
          exact h2 ▸ hevs e (List.mem_cons_self e rest) hk
      · rw [if_neg hk] at hturn2
        rcases List.mem_cons.mp hturn2 with rfl | htail
        · exact hcur spk st rfl
        · exact ih none m (fun _ _ h => Option.noConfusion h)
            (fun e' he' => hevs e' (List.mem_cons_of_mem e he')) turn htail

/-- Every turn emitted by `assemble` carries exactly the cleaned text of its
own span. -/
theorem assemble_text (t : List Char) (evs : List Ev) :
    ∀ (cur : Option (List Char × Nat)), ∀ turn ∈ assemble t evs cur,
      turn.text = mkTurnText t turn.span.1 turn.span.2 := by
  induction evs with
  | nil =>
    intro cur turn hturn
    cases cur with
    | none => exact absurd hturn (List.not_mem_nil turn)
    | some p =>
      obtain ⟨spk, st⟩ := p
      rcases List.mem_singleton.mp hturn with rfl
      dsimp only
  | cons e rest ih =>
    intro cur turn hturn
    cases cur with
    | none =>
      have hturn2 : turn ∈ (if e.kind = true then
          assemble t rest (some (e.label, e.stop)) else assemble t rest none) := hturn
      by_cases hk : e.kind = true
      · rw [if_pos hk] at hturn2
        exact ih _ turn hturn2
      · rw [if_neg hk] at hturn2
        exact ih _ turn hturn2
    | some p =>
      obtain ⟨spk, st⟩ := p
      have hturn2 : turn ∈ (if e.kind = true then
          (⟨spk, (st, e.start), mkTurnText t st e.start⟩ : Turn) ::
            assemble t rest (some (e.label, e.stop))
          else (⟨spk, (st, e.start), mkTurnText t st e.start⟩ : Turn) ::
            assemble t rest none) := hturn
      by_cases hk : e.kind = true
      · rw [if_pos hk] at hturn2
        rcases List.mem_cons.mp hturn2 with rfl | htail
        · dsimp only
        · exact ih _ turn htail
      · rw [if_neg hk] at hturn2
        rcases List.mem_cons.mp hturn2 with rfl | htail
        · dsimp only
        · exact ih _ turn htail

/-- Every speaker label emitted by `assemble` satisfies `P`, provided the open
turn's label (if any) and every pending `Start` event's label do. -/
theorem assemble_speaker (t : List Char) (P : List Char → Prop) (evs : List Ev) :
    ∀ (cur : Option (List Char × Nat)),
      (∀ spk st, cur = some (spk, st) → P spk) →
      (∀ e ∈ evs, e.kind = true → P e.label) →
      ∀ turn ∈ assemble t evs cur, P turn.speaker := by
  induction evs with
  | nil =>
    intro cur hcur _ turn hturn
    cases cur with
    | none => exact absurd hturn (List.not_mem_nil turn)
    | some p =>
      obtain ⟨spk, st⟩ := p
      rcases List.mem_singleton.mp hturn with rfl
      exact hcur spk st rfl
  | cons e rest ih =>
    intro cur hcur hevs turn hturn
    cases cur with
    | none =>
      have hturn2 : turn ∈ (if e.kind = true then
          assemble t rest (some (e.label, e.stop)) else assemble t rest none) := hturn
      by_cases hk : e.kind = true
      · rw [if_pos hk] at hturn2
        refine ih _ ?_ (fun e' he' => hevs e' (List.mem_cons_of_mem e he')) turn hturn2
        intro spk st h
        obtain ⟨h1, h2⟩ := Prod.mk.inj (Option.some.inj h)
        exact h1 ▸ hevs e (List.mem_cons_self e rest) hk
      · rw [if_neg hk] at hturn2
        exact ih none (fun _ _ h => Option.noConfusion h)
          (fun e' he' => hevs e' (List.mem_cons_of_mem e he')) turn hturn2
    | some p =>
      obtain ⟨spk, st⟩ := p
      have hturn2 : turn ∈ (if e.kind = true then
          (⟨spk, (st, e.start), mkTurnText t st e.start⟩ : Turn) ::
            assemble t rest (some (e.label, e.stop))
          else (⟨spk, (st, e.start), mkTurnText t st e.start⟩ : Turn) ::
            assemble t rest none) := hturn
      by_cases hk : e.kind = true
      · rw [if_pos hk] at hturn2
        rcases List.mem_cons.mp hturn2 with rfl | htail
        · exact hcur spk st rfl
        · refine ih _ ?_ (fun e' he' => hevs e' (List.mem_cons_of_mem e he')) turn htail
          intro spk' st' h
          obtain ⟨h1, h2⟩ := Prod.mk.inj (Option.some.inj h)
          exact h1 ▸ hevs e (List.mem_cons_self e rest) hk
      · rw [if_neg hk] at hturn2
        rcases List.mem_cons.mp hturn2 with rfl | htail
        · exact hcur spk st rfl
        · exact ih none (fun _ _ h => Option.noConfusion h)
            (fun e' he' => hevs e' (List.mem_cons_of_mem e he')) turn htail

/-- The turns emitted by `assemble` on a well-formed, ordered event list are
pairwise ordered and non-overlapping. -/
theorem assemble_pairwise (t : List Char) (evs : List Ev) :
    ∀ (cur : Option (List Char × Nat)),
      (∀ e ∈ evs, e.start ≤ e.stop) →
      List.Pairwise
        (fun a b : Ev => a.start ≤ b.start ∧ (a.kind = true → b.kind = true → a.stop ≤ b.stop))
        evs →
      (∀ spk st, cur = some (spk, st) → ∀ e ∈ evs, e.kind = true → st ≤ e.stop) →
      List.Pairwise (fun t1 t2 : Turn => t1.span.1 ≤ t2.span.1 ∧ t1.span.2 ≤ t2.span.1)
        (assemble t evs cur) := by
  induction evs with
  | nil =>
    intro cur _ _ _
    cases cur with
    | none => exact List.Pairwise.nil
    | some p =>
      obtain ⟨spk, st⟩ := p
      exact List.pairwise_singleton _ _
  | cons e rest ih =>
    intro cur hwf hQ hcur
    have hQe := (List.pairwise_cons.mp hQ).1
    have hQrest := (List.pairwise_cons.mp hQ).2
    have hwfe : e.start ≤ e.stop := hwf e (List.mem_cons_self e rest)
    have hwfrest : ∀ e' ∈ rest, e'.start ≤ e'.stop :=
      fun e' he' => hwf e' (List.mem_cons_of_mem e he')
    cases cur with
    | none =>
      show List.Pairwise (fun t1 t2 : Turn => t1.span.1 ≤ t2.span.1 ∧ t1.span.2 ≤ t2.span.1)
        (if e.kind = true then
          assemble t rest (some (e.label, e.stop)) else assemble t rest none)
      by_cases hk : e.kind = true
      · rw [if_pos hk]
        refine ih (some (e.label, e.stop)) hwfrest hQrest ?_
        intro spk st h e' he' hk'
        obtain ⟨h1, h2⟩ := Prod.mk.inj (Option.some.inj h)
        exact h2 ▸ (hQe e' he').2 hk hk'
      · rw [if_neg hk]
        exact ih none hwfrest hQrest fun _ _ h => Option.noConfusion h
    | some p =>
      obtain ⟨spk, st⟩ := p
      show List.Pairwise (fun t1 t2 : Turn => t1.span.1 ≤ t2.span.1 ∧ t1.span.2 ≤ t2.span.1)
        (if e.kind = true then
          (⟨spk, (st, e.start), mkTurnText t st e.start⟩ : Turn) ::
            assemble t rest (some (e.label, e.stop))
          else (⟨spk, (st, e.start), mkTurnText t st e.start⟩ : Turn) ::
            assemble t rest none)
      by_cases hk : e.kind = true
      · rw [if_pos hk]
        refine List.pairwise_cons.mpr ⟨?_, ?_⟩
        · intro turn2 hturn2
          constructor
          · show st ≤ turn2.span.1
            refine assemble_start_lb t rest (some (e.label, e.stop)) st ?_
              (fun e' he' hk' => hcur spk st rfl e' (List.mem_cons_of_mem e he') hk')
              turn2 hturn2
            intro spk' st' h
            obtain ⟨h1, h2⟩ := Prod.mk.inj (Option.some.inj h)
            exact h2 ▸ hcur spk st rfl e (List.mem_cons_self e rest) hk
          · show e.start ≤ turn2.span.1
            refine assemble_start_lb t rest (some (e.label, e.stop)) e.start ?_
              (fun e' he' hk' => le_trans (hQe e' he').1 (hwfrest e' he'))
              turn2 hturn2
            intro spk' st' h
            obtain ⟨h1, h2⟩ := Prod.mk.inj (Option.some.inj h)
            exact h2 ▸ hwfe
        · refine ih (some (e.label, e.stop)) hwfrest hQrest ?_
          intro spk' st' h e' he' hk'
          obtain ⟨h1, h2⟩ := Prod.mk.inj (Option.some.inj h)
          exact h2 ▸ (hQe e' he').2 hk hk'
      · rw [if_neg hk]
        refine List.pairwise_cons.mpr ⟨?_, ih none hwfrest hQrest
          fun _ _ h => Option.noConfusion h⟩
        intro turn2 hturn2
        constructor
        · show st ≤ turn2.span.1
          exact assemble_start_lb t rest none st (fun _ _ h => Option.noConfusion h)
            (fun e' he' hk' => hcur spk st rfl e' (List.mem_cons_of_mem e he') hk')
            turn2 hturn2
        · show e.start ≤ turn2.span.1
          exact assemble_start_lb t rest none e.start (fun _ _ h => Option.noConfusion h)
            (fun e' he' hk' => le_trans (hQe e' he').1 (hwfrest e' he'))
            turn2 hturn2

/-- C1: for every input transcript, the turns emitted by `scrape` are pairwise
non-overlapping and sorted ascending by the start offset of their text span,
and each turn's text is computed exactly from its own span of the
note-stripped, space-normalised transcript — text lying between turns is
discarded, never merged into any emitted turn. -/
theorem claim_C1 (text : List Char) :
    List.Pairwise
      (fun t1 t2 : Turn => t1.span.1 ≤ t2.span.1 ∧ t1.span.2 ≤ t2.span.1)
      (scrape text) ∧
    ∀ turn ∈ scrape text,
      turn.text = mkTurnText (replaceNbsp (strip_note_blocks text)) turn.span.1 turn.span.2 := by
  constructor
  · rw [scrape_unfold]
    refine assemble_pairwise _ _ none ?_ (sorted_pairwise _)
      fun _ _ h => Option.noConfusion h
    intro e he
    exact scrapeEvents_wf _ e ((List.perm_insertionSort _ _).subset he)
  · intro turn hturn
    rw [scrape_unfold] at hturn
    exact assemble_text _ _ none turn hturn

theorem claim_C1_witness :
    (List.Pairwise
      (fun t1 t2 : Turn => t1.span.1 ≤ t2.span.1 ∧ t1.span.2 ≤ t2.span.1)
      (scrape (toL "  Mr. SMITH. Yes.\n  Mr. JONES. No.\n"))) ∧
    (⟨toL "Mr. SMITH", (12, 18), toL "Yes."⟩ : Turn) ∈
      scrape (toL "  Mr. SMITH. Yes.\n  Mr. JONES. No.\n") ∧
    (⟨toL "Mr. SMITH", (12, 18), toL "Yes."⟩ : Turn).text =
      mkTurnText (replaceNbsp (strip_note_blocks (toL "  Mr. SMITH. Yes.\n  Mr. JONES. No.\n")))
        (⟨toL "Mr. SMITH", (12, 18), toL "Yes."⟩ : Turn).span.1
        (⟨toL "Mr. SMITH", (12, 18), toL "Yes."⟩ : Turn).span.2 :=
  ⟨(claim_C1 (toL "  Mr. SMITH. Yes.\n  Mr. JONES. No.\n")).1, by decide,
    (claim_C1 (toL "  Mr. SMITH. Yes.\n  Mr. JONES. No.\n")).2
      ⟨toL "Mr. SMITH", (12, 18), toL "Yes."⟩ (by decide)⟩

/-- C2: on the two-speaker input `"  Mr. SMITH. This is a test.\n  Mr. JONES.
A reply.\n"`, `scrape` yields exactly two turns, `("Mr. SMITH", "This is a
test.")` and `("Mr. JONES", "A reply.")`: the second Start event closes the
first turn at its start offset, and the still-open final turn is closed at
the transcript's end. -/
theorem claim_C2 :
    scrape (toL "  Mr. SMITH. This is a test.\n  Mr. JONES. A reply.\n") =
      [⟨toL "Mr. SMITH", (12, 29), toL "This is a test."⟩,
       ⟨toL "Mr. JONES", (41, 51), toL "A reply."⟩] ∧
    (scrape (toL "  Mr. SMITH. This is a test.\n  Mr. JONES. A reply.\n")).map
        (fun turn => (turn.speaker, turn.text)) =
      [(toL "Mr. SMITH", toL "This is a test."),
       (toL "Mr. JONES", toL "A reply.")] := by
  decide

/-- C9 counterexample: the claim that no emitted speaker label ends with a
period fails.  On the input `"  Mr. Ab C..\n"` the speaker pattern matches
`"  Mr. Ab C.."` (the name tail `" C."` is taken by the initial repetition
and the final period by the terminating `\.`), and stripping plus dropping
the single final character leaves the label `"Mr. Ab C."`, which still ends
with a period. -/
theorem claim_C9_counterexample :
    (scrape (toL "  Mr. Ab C..\n")).map Turn.speaker = [toL "Mr. Ab C."] ∧
    (toL "Mr. Ab C.").getLast? = some '.' := by
  decide

/-- C9 amended: every emitted speaker label comes from a Start event of the
speaker scan, whose matched slice ends with the terminating literal period,
and the label is the whitespace-stripped matched slice minus its final
character; dropping that one character does not guarantee the label itself is
period-free. -/
theorem claim_C9_amended (text : List Char) :
    ∀ turn ∈ scrape text,
      ∃ s e, (⟨true, s, e, turn.speaker⟩ : Ev) ∈
          speakerEvents (replaceNbsp (strip_note_blocks text)) ∧
        turn.speaker =
          (pyStrip (slice (replaceNbsp (strip_note_blocks text)) s e)).dropLast ∧
        (slice (replaceNbsp (strip_note_blocks text)) s e).getLast? = some '.' := by
  intro turn hturn
  rw [scrape_unfold] at hturn
  refine assemble_speaker (replaceNbsp (strip_note_blocks text))
    (fun spk => ∃ s e, (⟨true, s, e, spk⟩ : Ev) ∈
        speakerEvents (replaceNbsp (strip_note_blocks text)) ∧
      spk = (pyStrip (slice (replaceNbsp (strip_note_blocks text)) s e)).dropLast ∧
      (slice (replaceNbsp (strip_note_blocks text)) s e).getLast? = some '.')
    _ none (fun _ _ h => Option.noConfusion h) ?_ turn hturn
  intro e he hk
  have he' : e ∈ scrapeEvents (replaceNbsp (strip_note_blocks text)) :=
    (List.perm_insertionSort _ _).subset he
  obtain ⟨hmem, hlabel, hdot⟩ := scrapeEvents_kind_true _ e he' hk
  refine ⟨e.start, e.stop, ?_, hlabel, hdot⟩
  have hee : (⟨true, e.start, e.stop, e.label⟩ : Ev) = e := by rw [← hk]
  rw [hee]
  exact hmem

/-- C4, amended: marker lines pair up in order of appearance — the content
strictly between the (2k+1)-th and (2k+2)-th marker lines is removed before
scanning, content between the (2k)-th and (2k+1)-th markers is kept, and both
markers are retained in the scanned text.  A retained marker line is emitted
as a label-free `End` event when it begins a newline-delimited line of the
scanned text (offset 0 or directly after a line feed, where MULTILINE `^`
matches); this fails for other retained markers: a marker preceded by a
carriage-return-terminated line is retained by the splitlines-based stripping
yet yields no equals event. -/
theorem claim_C4_amended :
    (∀ (pre mid post : List (List Char)) (m m' : List Char),
        (pre.countP isEqualsLine) % 2 = 0 →
        isEqualsLine m = true → isEqualsLine m' = true →
        (∀ l ∈ mid, isEqualsLine l = false) →
        stripNoteLines false (pre ++ m :: (mid ++ m' :: post)) =
          stripNoteLines false pre ++ m :: m' :: stripNoteLines false post) ∧
    (∀ (t : List Char) (o : Nat) (l : List Char),
        (o, l) ∈ withOffsets 0 (splitNL [] t) →
        isEqualsLine (nlContent l) = true →
        (⟨false, o, o + (nlContent l).length, []⟩ : Ev) ∈ scrapeEvents t) ∧
    containsSub (toL "=====") (replaceNbsp (strip_note_blocks (toL "A\r=====\nB\n"))) = true ∧
    lineEndEvents isEqualsLine (replaceNbsp (strip_note_blocks (toL "A\r=====\nB\n"))) = [] := by
  refine ⟨?_, ?_, by decide, by decide⟩
  · intro pre mid post m m' hpre hm hm' hmid
    rw [stripNoteLines_append, skipAfter_parity, hpre]
    rw [show xor false (decide (0 = 1)) = false from rfl]
    congr 1
    rw [stripNoteLines, if_pos hm]
    rw [show (!false : Bool) = true from rfl]
    rw [stripNoteLines_append mid true (m' :: post), stripNoteLines_skip_all mid hmid,
      List.nil_append, skipAfter_parity]
    have hmid0 : (mid.countP isEqualsLine) = 0 :=
      List.countP_eq_zero.mpr fun l hl => by simp [hmid l hl]
    rw [hmid0]
    rw [show xor true (decide (0 % 2 = 1)) = true from rfl]
    rw [stripNoteLines, if_pos hm']
    rw [show (!true : Bool) = false from rfl]
  · intro t o l hol hp
    have hmem : (⟨false, o, o + (nlContent l).length, []⟩ : Ev) ∈
        lineEndEvents isEqualsLine t := lineEndEvents_of_mem isEqualsLine t o l hol hp
    simp only [scrapeEvents, List.mem_append]
    exact Or.inr hmem

/-- Witness for the amended claim C4: the marker pairing at a concrete
five-line transcript, and the equals `End` event of a newline-delimited
marker line. -/
theorem claim_C4_amended_witness :
    (stripNoteLines false
        (pySplitlinesKeep (toL "x\n") ++ toL "=====\n" ::
          ([toL "A\n", toL "B\n"] ++ toL "=====\n" :: [toL "C\n"])) =
      stripNoteLines false (pySplitlinesKeep (toL "x\n")) ++ toL "=====\n" ::
        toL "=====\n" :: stripNoteLines false [toL "C\n"]) ∧
    (⟨false, 2, 9, []⟩ : Ev) ∈ scrapeEvents (toL "x\n=======\ny\n") :=
  ⟨claim_C4_amended.1 (pySplitlinesKeep (toL "x\n")) [toL "A\n", toL "B\n"] [toL "C\n"]
      (toL "=====\n") (toL "=====\n") (by decide) (by decide) (by decide) (by decide),
    claim_C4_amended.2.1 (toL "x\n=======\ny\n") 2 (toL "=======\n") (by decide) (by decide)⟩

theorem claim_C9_amended_witness :
    (⟨toL "Mr. SMITH", (12, 17), toL "Hi."⟩ : Turn) ∈ scrape (toL "  Mr. SMITH. Hi.\n") ∧
    ∃ s e, (⟨true, s, e, (⟨toL "Mr. SMITH", (12, 17), toL "Hi."⟩ : Turn).speaker⟩ : Ev) ∈
        speakerEvents (replaceNbsp (strip_note_blocks (toL "  Mr. SMITH. Hi.\n"))) ∧
      (⟨toL "Mr. SMITH", (12, 17), toL "Hi."⟩ : Turn).speaker =
        (pyStrip (slice (replaceNbsp (strip_note_blocks (toL "  Mr. SMITH. Hi.\n"))) s e)).dropLast ∧
      (slice (replaceNbsp (strip_note_blocks (toL "  Mr. SMITH. Hi.\n"))) s e).getLast? =
        some '.' :=
  ⟨by decide, claim_C9_amended (toL "  Mr. SMITH. Hi.\n")
    ⟨toL "Mr. SMITH", (12, 17), toL "Hi."⟩ (by decide)⟩

end USCongress
